import Mathlib

/-!
# SIMD square-root benchmark (`src/main.cpp`)

A shallow embedding of the three square-root kernels, the benchmark harness and
the driver of `main.cpp`, together with an executable model of IEEE-754
binary64 arithmetic (round-to-nearest, ties-to-even) on which the kernels run.

The kernels are written once, over an abstract arithmetic `Arith α`, exactly as
the C++ text composes the intrinsics.  Two arithmetics are used:

* `binary64` : the `double` arithmetic of the target machine;
* `exactArith K sq` : exact arithmetic in a field `K` with a square-root function `sq`.
-/

namespace SimdSqrt

/-! ## IEEE-754 binary64 -/

/-- Modelled from the spec: the `double` type of the platform (IEEE-754 binary64), which
`main.cpp` takes from the compiler.  A datum is NaN, a signed infinity, or the finite value
`(-1)^neg * m * 2^e`. -/
inductive F64 where
  | nan : F64
  | inf (neg : Bool) : F64
  | fin (neg : Bool) (m : Nat) (e : Int) : F64
deriving DecidableEq

/-- Number of halvings needed to bring `n` below 2 (with a recursion budget). -/
def log2Fuel : Nat → Nat → Nat
  | 0, _ => 0
  | fuel + 1, n => if n < 2 then 0 else log2Fuel fuel (n / 2) + 1

/-- Floor of the base-2 logarithm of `n` (and `0` for `n = 0`). -/
def flog2 (n : Nat) : Nat := log2Fuel n n

/-- Bit-by-bit integer square root: tries the bits `b-1, ..., 0` on top of `r`. -/
def isqrtBits (n : Nat) : Nat → Nat → Nat
  | 0, r => r
  | b + 1, r =>
    if (r + 2 ^ b) * (r + 2 ^ b) ≤ n then isqrtBits n b (r + 2 ^ b) else isqrtBits n b r

/-- Floor of the square root of `n`. -/
def isqrt (n : Nat) : Nat := isqrtBits n (flog2 n / 2 + 1) 0

/-- Floor of the base-2 logarithm of the positive fraction `n / d`. -/
def ilog2 (n d : Nat) : Int :=
  let k : Int := (flog2 n : Int) - (flog2 d : Int)
  if n * 2 ^ (-k).toNat < d * 2 ^ k.toNat then k - 1 else k

/-- Exponent of the binary64 grid around the positive fraction `n / d`:
53 significant bits, never below the subnormal exponent `-1074`. -/
def gridExp (n d : Nat) : Int := max (ilog2 n d - 52) (-1074)

/-- The fraction `n / (d * 2^e)` rounded to the nearest integer, ties to even. -/
def roundMant (n d : Nat) (e : Int) : Nat :=
  let N := n * 2 ^ (-e).toNat
  let D := d * 2 ^ e.toNat
  let q := N / D
  let r := N % D
  if 2 * r < D then q else if 2 * r = D then (if q % 2 = 0 then q else q + 1) else q + 1

/-- Packs a rounded significand: renormalises a carry into bit 53 and overflows to infinity. -/
def pack (neg : Bool) (m : Nat) (e : Int) : F64 :=
  if m = 2 ^ 53 then (if 971 < e + 1 then .inf neg else .fin neg (2 ^ 52) (e + 1))
  else if 971 < e then .inf neg else .fin neg m e

/-- Modelled from the spec: the rounding of the platform (IEEE-754 round to nearest, ties to
even) of the fraction `(-1)^neg * n / d` to binary64. -/
def roundRat (neg : Bool) (n d : Nat) : F64 :=
  if n = 0 then .fin neg 0 (-1074)
  else pack neg (roundMant n d (gridExp n d)) (gridExp n d)

/-- The unit `±1` of a sign bit. -/
def sgn (s : Bool) : Int := if s then -1 else 1

/-- Modelled from the spec: IEEE-754 binary64 negation of a `double`. -/
def fneg : F64 → F64
  | .nan => .nan
  | .inf s => .inf (!s)
  | .fin s m e => .fin (!s) m e

/-- Modelled from the spec: IEEE-754 binary64 addition of `double`s (`vaddpd`). -/
def fadd : F64 → F64 → F64
  | .nan, _ => .nan
  | _, .nan => .nan
  | .inf s, .inf t => if s = t then .inf s else .nan
  | .inf s, .fin _ _ _ => .inf s
  | .fin _ _ _, .inf t => .inf t
  | .fin s1 m1 e1, .fin s2 m2 e2 =>
    let e := min e1 e2
    let c : Int :=
      sgn s1 * (m1 * 2 ^ (e1 - e).toNat : Nat) + sgn s2 * (m2 * 2 ^ (e2 - e).toNat : Nat)
    if c = 0 then .fin (s1 && s2) 0 (-1074)
    else roundRat (decide (c < 0)) (c.natAbs * 2 ^ e.toNat) (2 ^ (-e).toNat)

/-- Modelled from the spec: IEEE-754 binary64 subtraction of `double`s. -/
def fsub (x y : F64) : F64 := fadd x (fneg y)

/-- Modelled from the spec: IEEE-754 binary64 multiplication of `double`s (`vmulpd`). -/
def fmul : F64 → F64 → F64
  | .nan, _ => .nan
  | _, .nan => .nan
  | .inf s, .inf t => .inf (xor s t)
  | .inf s, .fin t m _ => if m = 0 then .nan else .inf (xor s t)
  | .fin s m _, .inf t => if m = 0 then .nan else .inf (xor s t)
  | .fin s1 m1 e1, .fin s2 m2 e2 =>
    roundRat (xor s1 s2) (m1 * m2 * 2 ^ (e1 + e2).toNat) (2 ^ (-(e1 + e2)).toNat)

/-- Modelled from the spec: IEEE-754 binary64 division of `double`s (`vdivpd`). -/
def fdiv : F64 → F64 → F64
  | .nan, _ => .nan
  | _, .nan => .nan
  | .inf _, .inf _ => .nan
  | .inf s, .fin t _ _ => .inf (xor s t)
  | .fin s _ _, .inf t => .fin (xor s t) 0 (-1074)
  | .fin s1 m1 e1, .fin s2 m2 e2 =>
    if m2 = 0 then (if m1 = 0 then .nan else .inf (xor s1 s2))
    else roundRat (xor s1 s2) (m1 * 2 ^ (e1 - e2).toNat) (m2 * 2 ^ (e2 - e1).toNat)

/-- Modelled from the spec: IEEE-754 binary64 square root of a `double`, correctly rounded
(`std::sqrt`, `sqrtsd`, each lane of `vsqrtpd`). -/
def fsqrt : F64 → F64
  | .nan => .nan
  | .inf s => if s then .nan else .inf false
  | .fin s m e =>
    if m = 0 then .fin s 0 (-1074)
    else if s then .nan
    else
      let t : Int := (flog2 m : Int) + e - 104
      let r : Int := t / 2
      let a := m * 2 ^ (e - 2 * r).toNat
      let q := isqrt a
      if a ≤ q * q + q then .fin false q r else .fin false (q + 1) r

/-- The rational value of a finite datum (and `0` for NaN and the infinities). -/
def F64.val : F64 → ℚ
  | .fin s m e => (sgn s : ℚ) * (m : ℚ) * (2 : ℚ) ^ e
  | _ => 0

/-- Finite data. -/
def F64.isFinite : F64 → Bool
  | .fin _ _ _ => true
  | _ => false

/-- Well-formed finite data: a 53-bit significand, an exponent in range, and
the canonical (largest possible) significand for the value. -/
def F64.WF : F64 → Prop
  | .fin _ m e => m < 2 ^ 53 ∧ -1074 ≤ e ∧ e ≤ 971 ∧ (m < 2 ^ 52 → e = -1074)
  | _ => True

/-- Strictly positive finite data. -/
def F64.FinPos : F64 → Prop
  | .fin s m _ => s = false ∧ 0 < m
  | _ => False

/-- Non-negative finite data (`+0.0` and `-0.0` included). -/
def F64.NonNegFinite : F64 → Prop
  | .fin s m _ => s = false ∨ m = 0
  | _ => False

instance F64.decWF : (x : F64) → Decidable x.WF
  | .fin _ m e =>
    inferInstanceAs (Decidable (m < 2 ^ 53 ∧ -1074 ≤ e ∧ e ≤ 971 ∧ (m < 2 ^ 52 → e = -1074)))
  | .nan => isTrue trivial
  | .inf _ => isTrue trivial

instance F64.decFinPos : (x : F64) → Decidable x.FinPos
  | .fin s m _ => inferInstanceAs (Decidable (s = false ∧ 0 < m))
  | .nan => isFalse id
  | .inf _ => isFalse id

instance F64.decNonNegFinite : (x : F64) → Decidable x.NonNegFinite
  | .fin s m _ => inferInstanceAs (Decidable (s = false ∨ m = 0))
  | .nan => isFalse id
  | .inf _ => isFalse id

/-- The datum is finite and lies within `tol` of the rational `c`. -/
def F64.within (x : F64) (c tol : ℚ) : Prop :=
  x.isFinite = true ∧ |x.val - c| ≤ tol

/-- Both data are finite and their values differ by at most `tol`. -/
def F64.closeTo (a b : F64) (tol : ℚ) : Prop :=
  a.isFinite = true ∧ b.isFinite = true ∧ |a.val - b.val| ≤ tol

/-- Both data are finite and their values differ by at most `rel` times the value of `b`. -/
def F64.closeRel (a b : F64) (rel : ℚ) : Prop :=
  a.isFinite = true ∧ b.isFinite = true ∧ |a.val - b.val| ≤ rel * b.val

/-- Unit roundoff of binary64. -/
def u53 : ℚ := (2 : ℚ) ^ (-53 : ℤ)

/-- Smallest positive normal binary64 value. -/
def normalMin : ℚ := (2 : ℚ) ^ (-1022 : ℤ)

/-- A bound below which no rounding overflows. -/
def safeMax : ℚ := (2 : ℚ) ^ (1023 : ℤ)

/-- The datum `y` is positive and finite, and its square is within `8 * 2^-53` of `x`,
relatively. -/
def NearRoot (x y : F64) : Prop :=
  y.FinPos ∧ x.val * (1 - 8 * u53) ≤ y.val ^ 2 ∧ y.val ^ 2 ≤ x.val * (1 + 8 * u53)

/-! ## The arithmetic the kernels run on -/

/-- The scalar operations `main.cpp` takes from the platform. -/
structure Arith (α : Type) where
  /-- The `double` denoted by the literal `n / d`. -/
  lit : Nat → Nat → α
  add : α → α → α
  sub : α → α → α
  mul : α → α → α
  div : α → α → α
  /-- The square root of `std::sqrt`, `sqrtsd` and of each lane of `vsqrtpd`. -/
  sqrt : α → α
  /-- The `duration<double>` (seconds) of a difference of clock readings (nanoseconds). -/
  secs : Int → α

/-- Modelled from the spec: the `double` arithmetic of the machine, IEEE-754 binary64 with
round to nearest even; a literal denotes the nearest `double`, and a difference of clock
readings in nanoseconds becomes seconds by a division by `1e9`. -/
def binary64 : Arith F64 where
  lit n d := roundRat false n d
  add := fadd
  sub := fsub
  mul := fmul
  div := fdiv
  sqrt := fsqrt
  secs t := fdiv (roundRat (decide (t < 0)) t.natAbs 1) (roundRat false 1000000000 1)

/-- Exact arithmetic in a field, with `sq` as square root. -/
def exactArith (K : Type) [Field K] (sq : K → K) : Arith K where
  lit n d := (n : K) / (d : K)
  add := (· + ·)
  sub := (· - ·)
  mul := (· * ·)
  div := (· / ·)
  sqrt := sq
  secs t := (t : K) / 1000000000

/-! ## Vector registers and intrinsics -/

/-- A 128-bit register of two `double` lanes (`__m128d`). -/
structure M128d (α : Type) where
  d0 : α
  d1 : α
deriving DecidableEq

/-- A 256-bit register of four `double` lanes (`__m256d`). -/
structure M256d (α : Type) where
  d0 : α
  d1 : α
  d2 : α
  d3 : α
deriving DecidableEq

variable {α : Type}

/-- Modelled from the spec: the intrinsic of `<immintrin.h>` that broadcasts a scalar to the
four lanes. -/
def _mm256_set1_pd (a : α) : M256d α := ⟨a, a, a, a⟩

/-- Modelled from the spec: the intrinsic of `<immintrin.h>` for the lane-wise square root. -/
def _mm256_sqrt_pd (A : Arith α) (a : M256d α) : M256d α :=
  ⟨A.sqrt a.d0, A.sqrt a.d1, A.sqrt a.d2, A.sqrt a.d3⟩

/-- Modelled from the spec: the intrinsic of `<immintrin.h>` for the lane-wise addition. -/
def _mm256_add_pd (A : Arith α) (a b : M256d α) : M256d α :=
  ⟨A.add a.d0 b.d0, A.add a.d1 b.d1, A.add a.d2 b.d2, A.add a.d3 b.d3⟩

/-- Modelled from the spec: the intrinsic of `<immintrin.h>` for the lane-wise multiplication. -/
def _mm256_mul_pd (A : Arith α) (a b : M256d α) : M256d α :=
  ⟨A.mul a.d0 b.d0, A.mul a.d1 b.d1, A.mul a.d2 b.d2, A.mul a.d3 b.d3⟩

/-- Modelled from the spec: the intrinsic of `<immintrin.h>` for the lane-wise division. -/
def _mm256_div_pd (A : Arith α) (a b : M256d α) : M256d α :=
  ⟨A.div a.d0 b.d0, A.div a.d1 b.d1, A.div a.d2 b.d2, A.div a.d3 b.d3⟩

/-- Modelled from the spec: the intrinsic of `<immintrin.h>` that takes the low 128 bits of a
256-bit register. -/
def _mm256_castpd256_pd128 (a : M256d α) : M128d α := ⟨a.d0, a.d1⟩

/-- Modelled from the spec: the value the intrinsic `_mm_store_sd` of `<immintrin.h>` stores to
memory, the low lane. -/
def _mm_store_sd (a : M128d α) : α := a.d0

/-- Modelled from the spec: the intrinsic of `<immintrin.h>` for the all-zero register. -/
def _mm_setzero_pd (A : Arith α) : M128d α := ⟨A.lit 0 1, A.lit 0 1⟩

/-- Modelled from the spec: the intrinsic of `<immintrin.h>` that loads a scalar into the low
lane and zeroes the high lane. -/
def _mm_load_sd (A : Arith α) (p : α) : M128d α := ⟨p, A.lit 0 1⟩

/-- Modelled from the spec: the intrinsic of `<immintrin.h>` for the square root of the low
lane of `b`; the high lane is copied from `a`. -/
def _mm_sqrt_sd (A : Arith α) (a b : M128d α) : M128d α := ⟨A.sqrt b.d0, a.d1⟩

/-- Modelled from the spec: the intrinsic of `<immintrin.h>` that reads the low lane as a
scalar. -/
def _mm_cvtsd_f64 (a : M128d α) : α := a.d0

/-! ## The kernels -/

/-- The kernel `sqrt_simd` of `main.cpp`. -/
def sqrt_simd (A : Arith α) (value : α) : α :=
  let input := _mm256_set1_pd value
  let result := _mm256_sqrt_pd A input
  _mm_store_sd (_mm256_castpd256_pd128 result)

/-- The body of the refinement loop: `y = half * (y + x / y)` on all lanes. -/
def nrStep (A : Arith α) (x half y : M256d α) : M256d α :=
  _mm256_mul_pd A half (_mm256_add_pd A y (_mm256_div_pd A x y))

/-- The register `y` after `k` passes through the refinement loop started at `y`. -/
def nrLoop (A : Arith α) (x half : M256d α) : Nat → M256d α → M256d α
  | 0, y => y
  | k + 1, y => nrLoop A x half k (nrStep A x half y)

/-- The initial estimate of `sqrt_simd_optimized`: the scalar square root, broadcast. -/
def nrSeed (A : Arith α) (value : α) : M256d α :=
  _mm256_set1_pd (_mm_cvtsd_f64 (_mm_sqrt_sd A (_mm_setzero_pd A) (_mm_load_sd A value)))

/-- The kernel `sqrt_simd_optimized` of `main.cpp`. -/
def sqrt_simd_optimized (A : Arith α) (value : α) : α :=
  let x := _mm256_set1_pd value
  let half := _mm256_set1_pd (A.lit 1 2)
  let y := nrLoop A x half 5 (nrSeed A value)
  _mm_store_sd (_mm256_castpd256_pd128 y)

/-- The register used as divisor in pass `i` (counted from 0) of the refinement loop. -/
def nrDivisor (A : Arith α) (value : α) (i : Nat) : M256d α :=
  nrLoop A (_mm256_set1_pd value) (_mm256_set1_pd (A.lit 1 2)) i (nrSeed A value)

/-- The Newton update on one lane. -/
def nrLane (A : Arith α) (x half y : α) : α := A.mul half (A.add y (A.div x y))

/-- The lane value after `k` updates. -/
def nrLaneLoop (A : Arith α) (x half : α) : Nat → α → α
  | 0, y => y
  | k + 1, y => nrLaneLoop A x half k (nrLane A x half y)

/-- The kernel `sqrt_standard` of `main.cpp`. -/
def sqrt_standard (A : Arith α) (value : α) : α := A.sqrt value

/-! ## The benchmark harness and the driver -/

/-- Modelled from the spec: the clock of the platform, as the sequence of readings it will
deliver and the number of readings taken so far. -/
structure World where
  clock : Nat → Int
  reads : Nat

/-- Modelled from the spec: one reading of `high_resolution_clock::now()`. -/
def now (w : World) : Int × World := (w.clock w.reads, { w with reads := w.reads + 1 })

/-- The line printed by one harness run. -/
structure Report (α : Type) where
  name : String
  result : α
  elapsed : α
  iterations : Int

/-- What one harness run does: its return value, its output, the arguments of
the kernel invocations it made (in order), and the clock afterwards. -/
structure BenchRun (α : Type) where
  elapsed : α
  printed : Report α
  calls : List α
  world : World

/-- The timing loop `for (int i = 0; i < iterations; ++i) result = func(value);`
with the current `result` and the log of invocations as state. -/
def benchLoop (func : α → α) (value : α) (iterations : Int) :
    Nat → Int → α × List α → α × List α
  | 0, _, st => st
  | fuel + 1, i, st =>
    if i < iterations then benchLoop func value iterations fuel (i + 1) (func value, st.2 ++ [value])
    else st

/-- The harness `benchmark` of `main.cpp`. -/
def benchmark (A : Arith α) (func : α → α) (name : String) (value : α) (iterations : Int)
    (w : World) : BenchRun α :=
  let start := now w
  let st := benchLoop func value iterations iterations.toNat 0 (A.lit 0 1, [])
  let stop := now start.2
  let elapsed := A.secs (stop.1 - start.1)
  ⟨elapsed, ⟨name, st.1, elapsed, iterations⟩, st.2, stop.2⟩

/-- Percentage difference as the specification words it: `(b - a) / a * 100`. -/
def percentage_difference (A : Arith α) (a b : α) : α :=
  A.mul (A.div (A.sub b a) a) (A.lit 100 1)

/-- Everything the driver prints, and its exit code. -/
structure MainRun (α : Type) where
  reports : List (Report α)
  diffs : List (String × α)
  exitCode : Int

/-- The driver `main` of `main.cpp`. -/
def main (A : Arith α) (w : World) : MainRun α :=
  let value := A.lit 42 1
  let iterations : Int := 1000000
  let r1 := benchmark A (sqrt_standard A) "Standard sqrt" value iterations w
  let time_standard := r1.elapsed
  let r2 := benchmark A (sqrt_simd A) "Basic SIMD" value iterations r1.world
  let time_basic_simd := r2.elapsed
  let r3 := benchmark A (sqrt_simd_optimized A) "Optimized SIMD" value iterations r2.world
  let time_optimized_simd := r3.elapsed
  let diff_basic_vs_standard :=
    A.mul (A.div (A.sub time_basic_simd time_standard) time_standard) (A.lit 100 1)
  let diff_optimized_vs_standard :=
    A.mul (A.div (A.sub time_optimized_simd time_standard) time_standard) (A.lit 100 1)
  let diff_optimized_vs_basic :=
    A.mul (A.div (A.sub time_optimized_simd time_basic_simd) time_basic_simd) (A.lit 100 1)
  { reports := [r1.printed, r2.printed, r3.printed]
    diffs :=
      [("Percentage difference between Basic SIMD and Standard: ", diff_basic_vs_standard),
       ("Percentage difference between Optimized SIMD and Standard: ", diff_optimized_vs_standard),
       ("Percentage difference between Optimized SIMD and Basic SIMD: ", diff_optimized_vs_basic)]
    exitCode := 0 }

set_option maxRecDepth 100000

/-! ## The harness -/

theorem benchLoop_run (func : α → α) (value : α) (iterations : Int) :
    ∀ (fuel : Nat) (i : Int) (st : α × List α), 0 ≤ i → i < iterations →
      (iterations - i).toNat ≤ fuel →
      benchLoop func value iterations fuel i st
        = (func value, st.2 ++ List.replicate (iterations - i).toNat value) := by
  intro fuel
  induction fuel with
  | zero => intro i st h0 hlt hf; omega
  | succ k ih =>
    intro i st h0 hlt hf
    rw [benchLoop, if_pos hlt]
    by_cases h1 : i + 1 < iterations
    · rw [ih (i + 1) _ (by omega) h1 (by omega)]
      have e : (iterations - i).toNat = (iterations - (i + 1)).toNat + 1 := by omega
      rw [e, List.replicate_succ]
      simp
    · have e : (iterations - i).toNat = 1 := by omega
      rw [e]
      cases k with
      | zero => simp [benchLoop]
      | succ j => simp [benchLoop, h1]

theorem benchLoop_skip (func : α → α) (value : α) (iterations : Int) (fuel : Nat) (i : Int)
    (st : α × List α) (h : iterations ≤ i) :
    benchLoop func value iterations fuel i st = st := by
  cases fuel with
  | zero => rfl
  | succ k => rw [benchLoop, if_neg (by omega)]

/-- C1: for an iteration count `n > 0` the harness invokes the kernel exactly `n` times,
each time on the fixed input, and the result it reports is the kernel's output on that input. -/
theorem benchmark_invokes_n_times (A : Arith α) (func : α → α) (name : String) (value : α)
    (n : Int) (w : World) (hn : 0 < n) :
    (benchmark A func name value n w).calls = List.replicate n.toNat value ∧
    ((benchmark A func name value n w).calls.length : Int) = n ∧
    (benchmark A func name value n w).printed.result = func value := by
  have h := benchLoop_run func value n n.toNat 0 (A.lit 0 1, []) (le_refl 0) hn (by simp)
  simp only [sub_zero, List.nil_append] at h
  refine ⟨?_, ?_, ?_⟩
  · simp only [benchmark, h]
  · simp only [benchmark, h, List.length_replicate]
    omega
  · simp only [benchmark, h]

theorem benchmark_invokes_n_times_witness :
    (0 : Int) < 3 ∧
    (benchmark binary64 (sqrt_simd_optimized binary64) "Optimized SIMD" (binary64.lit 42 1) 3
        ⟨fun k => 10 * k, 0⟩).calls
      = List.replicate (3 : Int).toNat (binary64.lit 42 1) ∧
    ((benchmark binary64 (sqrt_simd_optimized binary64) "Optimized SIMD" (binary64.lit 42 1) 3
        ⟨fun k => 10 * k, 0⟩).calls.length : Int) = 3 ∧
    (benchmark binary64 (sqrt_simd_optimized binary64) "Optimized SIMD" (binary64.lit 42 1) 3
        ⟨fun k => 10 * k, 0⟩).printed.result
      = sqrt_simd_optimized binary64 (binary64.lit 42 1) :=
  ⟨by decide, benchmark_invokes_n_times binary64 (sqrt_simd_optimized binary64) "Optimized SIMD"
    (binary64.lit 42 1) 3 ⟨fun k => 10 * k, 0⟩ (by decide)⟩

/-- C4: for an iteration count `n ≤ 0` the harness (a total function) never invokes the
kernel and reports the initial value of `result`, the literal `0`, which in binary64 is `+0.0`. -/
theorem benchmark_nonpositive_iterations (A : Arith α) (func : α → α) (name : String)
    (value : α) (n : Int) (w : World) (hn : n ≤ 0) :
    (benchmark A func name value n w).calls = [] ∧
    (benchmark A func name value n w).printed.result = A.lit 0 1 ∧
    binary64.lit 0 1 = F64.fin false 0 (-1074) := by
  have h := benchLoop_skip func value n n.toNat 0 (A.lit 0 1, []) hn
  refine ⟨?_, ?_, ?_⟩
  · simp only [benchmark, h]
  · simp only [benchmark, h]
  · decide

theorem benchmark_nonpositive_iterations_witness :
    (-7 : Int) ≤ 0 ∧
    (benchmark binary64 (sqrt_simd binary64) "Basic SIMD" (binary64.lit 42 1) (-7)
        ⟨fun k => 10 * k, 0⟩).calls = [] ∧
    (benchmark binary64 (sqrt_simd binary64) "Basic SIMD" (binary64.lit 42 1) (-7)
        ⟨fun k => 10 * k, 0⟩).printed.result = binary64.lit 0 1 ∧
    binary64.lit 0 1 = F64.fin false 0 (-1074) :=
  ⟨by decide, benchmark_nonpositive_iterations binary64 (sqrt_simd binary64) "Basic SIMD"
    (binary64.lit 42 1) (-7) ⟨fun k => 10 * k, 0⟩ (by decide)⟩

/-- C5: the three percentages the driver prints are `(b - a) / a * 100` for the elapsed times
returned by the three harness runs, with `(a, b)` = (standard, basic), (standard, optimized)
and (basic, optimized): the second-named kernel of each pair is the baseline `a`. -/
theorem main_percentage_differences (A : Arith α) (w : World) :
    let r1 := benchmark A (sqrt_standard A) "Standard sqrt" (A.lit 42 1) 1000000 w
    let r2 := benchmark A (sqrt_simd A) "Basic SIMD" (A.lit 42 1) 1000000 r1.world
    let r3 := benchmark A (sqrt_simd_optimized A) "Optimized SIMD" (A.lit 42 1) 1000000 r2.world
    (main A w).diffs.map Prod.snd
      = [percentage_difference A r1.elapsed r2.elapsed,
         percentage_difference A r1.elapsed r3.elapsed,
         percentage_difference A r2.elapsed r3.elapsed] := by
  intro r1 r2 r3
  simp only [main, percentage_difference, List.map_cons, List.map_nil, r1, r2, r3]

theorem sqrt_simd_eq_std (A : Arith α) (v : α) : sqrt_simd A v = A.sqrt v := rfl

/-- C2: the single-instruction kernel returns the same value as the standard kernel:
broadcasting, taking the lane-wise square root and extracting lane 0 is the scalar square root. -/
theorem sqrt_simd_eq_sqrt_standard (A : Arith α) (v : α) :
    sqrt_simd A v = sqrt_standard A v := rfl

/-! ## Exact arithmetic -/

theorem nrStep_exact_set1 (sq : ℝ → ℝ) (x y : ℝ) :
    nrStep (exactArith ℝ sq) (_mm256_set1_pd x) (_mm256_set1_pd ((exactArith ℝ sq).lit 1 2))
        (_mm256_set1_pd y)
      = _mm256_set1_pd (1 / 2 * (y + x / y)) := by
  simp [nrStep, _mm256_mul_pd, _mm256_add_pd, _mm256_div_pd, _mm256_set1_pd, exactArith]

theorem newton_fixed_point (x y : ℝ) (hy : 0 < y) (hxy : y * y = x) :
    1 / 2 * (y + x / y) = y := by
  have hy0 : y ≠ 0 := ne_of_gt hy
  rw [← hxy]
  field_simp

theorem newton_error (x y s : ℝ) (hy : 0 < y) (hs : s * s = x) :
    1 / 2 * (y + x / y) - s = (y - s) ^ 2 / (2 * y) := by
  have hy0 : y ≠ 0 := ne_of_gt hy
  rw [← hs]
  field_simp
  ring

/-- C8: in exact arithmetic one update `0.5 * (y + x / y)` at an exact seed (`y * y = x`,
`y > 0`) returns `y`; so the 5 passes of `sqrt_simd_optimized` leave the seed `sqrt x`
unchanged and the kernel returns its seed. -/
theorem newton_exact_seed_unchanged (x : ℝ) (hx : 0 < x) :
    (∀ y : ℝ, 0 < y → y * y = x →
      nrStep (exactArith ℝ Real.sqrt) (_mm256_set1_pd x)
          (_mm256_set1_pd ((exactArith ℝ Real.sqrt).lit 1 2)) (_mm256_set1_pd y)
        = _mm256_set1_pd y) ∧
    (∀ k : Nat, nrDivisor (exactArith ℝ Real.sqrt) x k = _mm256_set1_pd (Real.sqrt x)) ∧
    sqrt_simd_optimized (exactArith ℝ Real.sqrt) x = Real.sqrt x := by
  have hs : 0 < Real.sqrt x := Real.sqrt_pos.mpr hx
  have hss : Real.sqrt x * Real.sqrt x = x := Real.mul_self_sqrt (le_of_lt hx)
  have step : ∀ y : ℝ, 0 < y → y * y = x →
      nrStep (exactArith ℝ Real.sqrt) (_mm256_set1_pd x)
          (_mm256_set1_pd ((exactArith ℝ Real.sqrt).lit 1 2)) (_mm256_set1_pd y)
        = _mm256_set1_pd y := by
    intro y hy hxy
    rw [nrStep_exact_set1, newton_fixed_point x y hy hxy]
  have loop : ∀ k : Nat,
      nrLoop (exactArith ℝ Real.sqrt) (_mm256_set1_pd x)
          (_mm256_set1_pd ((exactArith ℝ Real.sqrt).lit 1 2)) k (_mm256_set1_pd (Real.sqrt x))
        = _mm256_set1_pd (Real.sqrt x) := by
    intro k
    induction k with
    | zero => rfl
    | succ j ih => rw [nrLoop, step _ hs hss, ih]
  have seed : nrSeed (exactArith ℝ Real.sqrt) x = _mm256_set1_pd (Real.sqrt x) := rfl
  refine ⟨step, ?_, ?_⟩
  · intro k
    rw [nrDivisor, seed, loop k]
  · rw [sqrt_simd_optimized]
    simp only [seed, loop 5]
    rfl

theorem newton_exact_seed_unchanged_witness :
    (0 : ℝ) < 4 ∧
    ((∀ y : ℝ, 0 < y → y * y = 4 →
      nrStep (exactArith ℝ Real.sqrt) (_mm256_set1_pd 4)
          (_mm256_set1_pd ((exactArith ℝ Real.sqrt).lit 1 2)) (_mm256_set1_pd y)
        = _mm256_set1_pd y) ∧
    (∀ k : Nat, nrDivisor (exactArith ℝ Real.sqrt) 4 k = _mm256_set1_pd (Real.sqrt 4)) ∧
    sqrt_simd_optimized (exactArith ℝ Real.sqrt) 4 = Real.sqrt 4) :=
  ⟨by norm_num, newton_exact_seed_unchanged 4 (by norm_num)⟩

/-- C9: in exact real arithmetic, for `x > 0` and an estimate `y > 0`, the update
`y' = 0.5 * (y + x / y)` of `sqrt_simd_optimized` satisfies
`y' - sqrt x = (y - sqrt x)^2 / (2 * y)`, hence `y' ≥ sqrt x`. -/
theorem newton_quadratic_convergence (x y : ℝ) (hx : 0 < x) (hy : 0 < y) :
    ∃ y1 : ℝ,
      nrStep (exactArith ℝ Real.sqrt) (_mm256_set1_pd x)
          (_mm256_set1_pd ((exactArith ℝ Real.sqrt).lit 1 2)) (_mm256_set1_pd y)
        = _mm256_set1_pd y1 ∧
      y1 = 1 / 2 * (y + x / y) ∧
      y1 - Real.sqrt x = (y - Real.sqrt x) ^ 2 / (2 * y) ∧
      Real.sqrt x ≤ y1 := by
  have hss : Real.sqrt x * Real.sqrt x = x := Real.mul_self_sqrt (le_of_lt hx)
  have herr := newton_error x y (Real.sqrt x) hy hss
  refine ⟨1 / 2 * (y + x / y), nrStep_exact_set1 Real.sqrt x y, rfl, herr, ?_⟩
  have hnn : 0 ≤ (y - Real.sqrt x) ^ 2 / (2 * y) := by positivity
  linarith

theorem newton_quadratic_convergence_witness :
    (0 : ℝ) < 2 ∧ (0 : ℝ) < 1 ∧
    ∃ y1 : ℝ,
      nrStep (exactArith ℝ Real.sqrt) (_mm256_set1_pd 2)
          (_mm256_set1_pd ((exactArith ℝ Real.sqrt).lit 1 2)) (_mm256_set1_pd 1)
        = _mm256_set1_pd y1 ∧
      y1 = 1 / 2 * (1 + 2 / 1) ∧
      y1 - Real.sqrt 2 = (1 - Real.sqrt 2) ^ 2 / (2 * 1) ∧
      Real.sqrt 2 ≤ y1 :=
  ⟨by norm_num, by norm_num, newton_quadratic_convergence 2 1 (by norm_num) (by norm_num)⟩

/-! ## The input of the driver, 42.0 -/


theorem lit_42 : binary64.lit 42 1 = F64.fin false 5910974510923776 (-47) := by decide

theorem sqrt_standard_42 :
    sqrt_standard binary64 (binary64.lit 42 1) = F64.fin false 7296665348608612 (-50) := by
  decide

theorem sqrt_simd_optimized_42 :
    sqrt_simd_optimized binary64 (binary64.lit 42 1)
      = F64.fin false 7296665348608612 (-50) := by
  decide

/-- C7: on the input 42.0 each of the three kernels returns a value within 1e-9 of
6.4807406984, and `sqrt_standard` and `sqrt_simd` return a value within 1e-12 of
6.48074069840786. -/
theorem kernels_at_42 :
    (sqrt_standard binary64 (binary64.lit 42 1)).within 6.4807406984 (1 / 10 ^ 9) ∧
    (sqrt_simd binary64 (binary64.lit 42 1)).within 6.4807406984 (1 / 10 ^ 9) ∧
    (sqrt_simd_optimized binary64 (binary64.lit 42 1)).within 6.4807406984 (1 / 10 ^ 9) ∧
    (sqrt_standard binary64 (binary64.lit 42 1)).within 6.48074069840786 (1 / 10 ^ 12) ∧
    (sqrt_simd binary64 (binary64.lit 42 1)).within 6.48074069840786 (1 / 10 ^ 12) := by
  have hv : (F64.fin false 7296665348608612 (-50)).val = 7296665348608612 / 2 ^ 50 := by
    simp only [F64.val, sgn]
    norm_num [zpow_neg]
  have h9 : (F64.fin false 7296665348608612 (-50)).within 6.4807406984 (1 / 10 ^ 9) := by
    refine ⟨rfl, ?_⟩
    rw [hv, abs_le]
    constructor <;> norm_num
  have h12 : (F64.fin false 7296665348608612 (-50)).within 6.48074069840786 (1 / 10 ^ 12) := by
    refine ⟨rfl, ?_⟩
    rw [hv, abs_le]
    constructor <;> norm_num
  rw [sqrt_simd_eq_std, sqrt_standard_42, sqrt_simd_optimized_42]
  exact ⟨h9, h9, h9, h12, h12⟩

/-! ## Binary64 rounding -/

theorem log2Fuel_spec : ∀ (fuel n : Nat), n ≤ fuel → 0 < n →
    2 ^ log2Fuel fuel n ≤ n ∧ n < 2 ^ (log2Fuel fuel n + 1) := by
  intro fuel
  induction fuel with
  | zero => intro n h1 h2; omega
  | succ k ih =>
    intro n h1 h2
    rw [log2Fuel]
    split_ifs with h
    · constructor <;> simp <;> omega
    · have := ih (n / 2) (by omega) (by omega)
      obtain ⟨a, b⟩ := this
      rw [pow_succ, pow_succ]
      constructor <;> omega

theorem flog2_spec (n : Nat) (hn : 0 < n) : 2 ^ flog2 n ≤ n ∧ n < 2 ^ (flog2 n + 1) :=
  log2Fuel_spec n n (le_refl n) hn

theorem isqrtBits_spec (n : Nat) : ∀ (b r : Nat), r * r ≤ n → n < (r + 2 ^ b) * (r + 2 ^ b) →
    isqrtBits n b r * isqrtBits n b r ≤ n ∧
      n < (isqrtBits n b r + 1) * (isqrtBits n b r + 1) := by
  intro b
  induction b with
  | zero => intro r h1 h2; simpa [isqrtBits] using ⟨h1, h2⟩
  | succ k ih =>
    intro r h1 h2
    rw [isqrtBits]
    split_ifs with h
    · apply ih _ h
      have : r + 2 ^ k + 2 ^ k = r + 2 ^ (k + 1) := by rw [pow_succ]; omega
      rw [this]; exact h2
    · exact ih _ h1 (by omega)

theorem isqrt_spec (n : Nat) : isqrt n * isqrt n ≤ n ∧ n < (isqrt n + 1) * (isqrt n + 1) := by
  rcases Nat.eq_zero_or_pos n with h | h
  · subst h; decide
  · apply isqrtBits_spec
    · simp
    · have h1 := (flog2_spec n h).2
      have h2 : flog2 n + 1 ≤ (flog2 n / 2 + 1) + (flog2 n / 2 + 1) := by omega
      calc n < 2 ^ (flog2 n + 1) := h1
        _ ≤ 2 ^ ((flog2 n / 2 + 1) + (flog2 n / 2 + 1)) := Nat.pow_le_pow_right (by norm_num) h2
        _ = (0 + 2 ^ (flog2 n / 2 + 1)) * (0 + 2 ^ (flog2 n / 2 + 1)) := by rw [pow_add]; simp

theorem two_zpow_split (e : ℤ) : (2 : ℚ) ^ e = (2 : ℚ) ^ e.toNat / (2 : ℚ) ^ (-e).toNat := by
  rcases le_total 0 e with h | h
  · have h1 : (-e).toNat = 0 := by omega
    rw [h1, pow_zero, div_one, ← zpow_natCast, Int.toNat_of_nonneg h]
  · have h1 : e.toNat = 0 := by omega
    have h2 : e = -((-e).toNat : ℤ) := by omega
    rw [h1, pow_zero, one_div, ← zpow_natCast, ← zpow_neg, ← h2]

theorem frac_shift (n d : Nat) (e : ℤ) :
    ((n * 2 ^ (-e).toNat : Nat) : ℚ) / ((d * 2 ^ e.toNat : Nat) : ℚ) = (n : ℚ) / (d : ℚ) / (2 : ℚ) ^ e := by
  rw [two_zpow_split e]
  push_cast
  have h1 : (2 : ℚ) ^ e.toNat ≠ 0 := by positivity
  have h2 : (2 : ℚ) ^ (-e).toNat ≠ 0 := by positivity
  by_cases hd : (d : ℚ) = 0
  · simp [hd]
  · field_simp

theorem ilog2_spec (n d : Nat) (hn : 0 < n) (hd : 0 < d) :
    (2 : ℚ) ^ ilog2 n d ≤ (n : ℚ) / d ∧ (n : ℚ) / d < (2 : ℚ) ^ (ilog2 n d + 1) := by
  obtain ⟨a1, a2⟩ := flog2_spec n hn
  obtain ⟨b1, b2⟩ := flog2_spec d hd
  have hdq : (0 : ℚ) < d := by exact_mod_cast hd
  have hnq : (0 : ℚ) < n := by exact_mod_cast hn
  have a1q : (2 : ℚ) ^ (flog2 n : ℤ) ≤ n := by rw [zpow_natCast]; exact_mod_cast a1
  have a2q : (n : ℚ) < (2 : ℚ) ^ ((flog2 n : ℤ) + 1) := by
    rw [show ((flog2 n : ℤ) + 1) = ((flog2 n + 1 : Nat) : ℤ) by push_cast; ring, zpow_natCast]
    exact_mod_cast a2
  have b1q : (2 : ℚ) ^ (flog2 d : ℤ) ≤ d := by rw [zpow_natCast]; exact_mod_cast b1
  have b2q : (d : ℚ) < (2 : ℚ) ^ ((flog2 d : ℤ) + 1) := by
    rw [show ((flog2 d : ℤ) + 1) = ((flog2 d + 1 : Nat) : ℤ) by push_cast; ring, zpow_natCast]
    exact_mod_cast b2
  have key : ∀ k : ℤ, (n * 2 ^ (-k).toNat < d * 2 ^ k.toNat) ↔ (n : ℚ) / d < (2 : ℚ) ^ k := by
    intro k
    rw [two_zpow_split k, div_lt_div_iff₀ hdq (by positivity), mul_comm ((2 : ℚ) ^ k.toNat)]
    constructor
    · intro h; exact_mod_cast h
    · intro h; exact_mod_cast h
  have hp : ∀ k : ℤ, (0 : ℚ) < (2 : ℚ) ^ k := fun k => by positivity
  unfold ilog2
  simp only
  split_ifs with h
  · rw [key] at h
    refine ⟨?_, by simpa using h⟩
    rw [le_div_iff₀ hdq]
    have e1 : (2 : ℚ) ^ ((flog2 n : ℤ) - (flog2 d : ℤ) - 1) * (2 : ℚ) ^ ((flog2 d : ℤ) + 1)
        = (2 : ℚ) ^ (flog2 n : ℤ) := by
      rw [← zpow_add₀ (by norm_num)]; congr 1; ring
    calc (2 : ℚ) ^ ((flog2 n : ℤ) - (flog2 d : ℤ) - 1) * d
        ≤ (2 : ℚ) ^ ((flog2 n : ℤ) - (flog2 d : ℤ) - 1) * (2 : ℚ) ^ ((flog2 d : ℤ) + 1) :=
          mul_le_mul_of_nonneg_left (le_of_lt b2q) (le_of_lt (hp _))
      _ = (2 : ℚ) ^ (flog2 n : ℤ) := e1
      _ ≤ n := a1q
  · rw [key, not_lt] at h
    refine ⟨h, ?_⟩
    rw [div_lt_iff₀ hdq]
    have e1 : (2 : ℚ) ^ ((flog2 n : ℤ) - (flog2 d : ℤ) + 1) * (2 : ℚ) ^ (flog2 d : ℤ)
        = (2 : ℚ) ^ ((flog2 n : ℤ) + 1) := by
      rw [← zpow_add₀ (by norm_num)]; congr 1; ring
    calc (n : ℚ) < (2 : ℚ) ^ ((flog2 n : ℤ) + 1) := a2q
      _ = (2 : ℚ) ^ ((flog2 n : ℤ) - (flog2 d : ℤ) + 1) * (2 : ℚ) ^ (flog2 d : ℤ) := e1.symm
      _ ≤ (2 : ℚ) ^ ((flog2 n : ℤ) - (flog2 d : ℤ) + 1) * d :=
          mul_le_mul_of_nonneg_left b1q (le_of_lt (hp _))

theorem roundMant_nat (N D : Nat) (hD : 0 < D) :
    let q := N / D
    let r := N % D
    let m := if 2 * r < D then q else if 2 * r = D then (if q % 2 = 0 then q else q + 1) else q + 1
    2 * (m * D) ≤ 2 * N + D ∧ 2 * N ≤ 2 * (m * D) + D := by
  intro q r m
  have h1 : D * q + r = N := Nat.div_add_mod N D
  have h2 : r < D := Nat.mod_lt N hD
  have h3 : q * D = D * q := Nat.mul_comm _ _
  have h4 : (q + 1) * D = D * q + D := by rw [Nat.add_mul, one_mul, h3]
  simp only [m]
  split_ifs <;> first | (rw [h3]; omega) | (rw [h4]; omega)

theorem roundMant_spec (n d : Nat) (e : ℤ) (hd : 0 < d) :
    |(roundMant n d e : ℚ) - (n : ℚ) / d / (2 : ℚ) ^ e| ≤ 1 / 2 := by
  have hD : 0 < d * 2 ^ e.toNat := Nat.mul_pos hd (by positivity)
  have h := roundMant_nat (n * 2 ^ (-e).toNat) (d * 2 ^ e.toNat) hD
  simp only at h
  rw [← frac_shift]
  change 2 * (roundMant n d e * (d * 2 ^ e.toNat)) ≤ 2 * (n * 2 ^ (-e).toNat) + d * 2 ^ e.toNat ∧
    2 * (n * 2 ^ (-e).toNat) ≤ 2 * (roundMant n d e * (d * 2 ^ e.toNat)) + d * 2 ^ e.toNat at h
  obtain ⟨h1, h2⟩ := h
  have hDq : (0 : ℚ) < ((d * 2 ^ e.toNat : Nat) : ℚ) := by exact_mod_cast hD
  have h1q : 2 * ((roundMant n d e : ℚ) * ((d * 2 ^ e.toNat : Nat) : ℚ))
      ≤ 2 * ((n * 2 ^ (-e).toNat : Nat) : ℚ) + ((d * 2 ^ e.toNat : Nat) : ℚ) := by exact_mod_cast h1
  have h2q : 2 * ((n * 2 ^ (-e).toNat : Nat) : ℚ)
      ≤ 2 * ((roundMant n d e : ℚ) * ((d * 2 ^ e.toNat : Nat) : ℚ)) + ((d * 2 ^ e.toNat : Nat) : ℚ) := by
    exact_mod_cast h2
  generalize ((d * 2 ^ e.toNat : Nat) : ℚ) = D at hDq h1q h2q ⊢
  generalize ((n * 2 ^ (-e).toNat : Nat) : ℚ) = N at h1q h2q ⊢
  generalize (roundMant n d e : ℚ) = m at h1q h2q ⊢
  have hN : N / D * D = N := div_mul_cancel₀ N (ne_of_gt hDq)
  rw [abs_le]
  constructor
  · by_contra hc
    rw [not_le] at hc
    have := mul_lt_mul_of_pos_right hc hDq
    nlinarith
  · by_contra hc
    rw [not_le] at hc
    have := mul_lt_mul_of_pos_right hc hDq
    nlinarith

theorem pack_fin (neg : Bool) (m : Nat) (e : ℤ) (he : e ≤ 970) :
    ∃ m1 e1, pack neg m e = .fin neg m1 e1 ∧ (m1 : ℚ) * (2 : ℚ) ^ e1 = (m : ℚ) * (2 : ℚ) ^ e := by
  unfold pack
  split_ifs with h1 h2 h3
  · omega
  · refine ⟨2 ^ 52, e + 1, rfl, ?_⟩
    rw [h1, zpow_add_one₀ (by norm_num)]
    push_cast
    ring
  · omega
  · exact ⟨m, e, rfl, rfl⟩

/-- Relative unit roundoff of binary64. -/
theorem roundRat_normal (neg : Bool) (n d : Nat) (hn : 0 < n) (hd : 0 < d)
    (hlo : (2 : ℚ) ^ (-1022 : ℤ) ≤ (n : ℚ) / d) (hhi : (n : ℚ) / d < (2 : ℚ) ^ (1023 : ℤ)) :
    ∃ m e, roundRat neg n d = .fin neg m e ∧
      |(m : ℚ) * (2 : ℚ) ^ e - (n : ℚ) / d| ≤ (n : ℚ) / d * (2 : ℚ) ^ (-53 : ℤ) := by
  obtain ⟨l1, l2⟩ := ilog2_spec n d hn hd
  have g1 : -1022 ≤ ilog2 n d := by
    have : (2 : ℚ) ^ (-1022 : ℤ) < (2 : ℚ) ^ (ilog2 n d + 1) := lt_of_le_of_lt hlo l2
    rw [zpow_lt_zpow_iff_right₀ (by norm_num)] at this
    omega
  have g2 : ilog2 n d ≤ 1022 := by
    have : (2 : ℚ) ^ (ilog2 n d) < (2 : ℚ) ^ (1023 : ℤ) := lt_of_le_of_lt l1 hhi
    rw [zpow_lt_zpow_iff_right₀ (by norm_num)] at this
    omega
  have ge : gridExp n d = ilog2 n d - 52 := by unfold gridExp; omega
  obtain ⟨m1, e1, hp, hv⟩ := pack_fin neg (roundMant n d (gridExp n d)) (gridExp n d) (by omega)
  refine ⟨m1, e1, ?_, ?_⟩
  · rw [roundRat, if_neg (by omega), hp]
  · rw [hv]
    have hm := roundMant_spec n d (gridExp n d) hd
    have hpos : (0 : ℚ) < (2 : ℚ) ^ gridExp n d := by positivity
    have e2 : (roundMant n d (gridExp n d) : ℚ) * (2 : ℚ) ^ gridExp n d - (n : ℚ) / d
        = ((roundMant n d (gridExp n d) : ℚ) - (n : ℚ) / d / (2 : ℚ) ^ gridExp n d)
            * (2 : ℚ) ^ gridExp n d := by
      field_simp
      ring
    rw [e2, abs_mul, abs_of_pos hpos]
    have e3 : (2 : ℚ) ^ gridExp n d = (2 : ℚ) ^ ilog2 n d * (2 : ℚ) ^ (-53 : ℤ) * 2 := by
      rw [ge, show ilog2 n d - 52 = ilog2 n d + (-53) + 1 by ring, zpow_add_one₀ (by norm_num),
        zpow_add₀ (by norm_num)]
    have hp53 : (0 : ℚ) < (2 : ℚ) ^ (-53 : ℤ) := by positivity
    calc |(roundMant n d (gridExp n d) : ℚ) - (n : ℚ) / d / (2 : ℚ) ^ gridExp n d|
            * (2 : ℚ) ^ gridExp n d
        ≤ 1 / 2 * (2 : ℚ) ^ gridExp n d := mul_le_mul_of_nonneg_right hm (le_of_lt hpos)
      _ = (2 : ℚ) ^ ilog2 n d * (2 : ℚ) ^ (-53 : ℤ) := by rw [e3]; ring
      _ ≤ (n : ℚ) / d * (2 : ℚ) ^ (-53 : ℤ) := mul_le_mul_of_nonneg_right l1 (le_of_lt hp53)

theorem u53_pos : 0 < u53 := by unfold u53; positivity

theorem u53_small : u53 ≤ 1 / 1000 := by unfold u53; norm_num [zpow_neg]

theorem normalMin_pos : 0 < normalMin := by unfold normalMin; positivity

theorem val_fin_false (m : Nat) (e : ℤ) : (F64.fin false m e).val = (m : ℚ) * (2 : ℚ) ^ e := by
  simp [F64.val, sgn]

theorem finPos_iff (x : F64) : x.FinPos ↔ ∃ m e, x = .fin false m e ∧ 0 < m := by
  cases x with
  | nan => simp [F64.FinPos]
  | inf s => simp [F64.FinPos]
  | fin s m e =>
    simp only [F64.FinPos, F64.fin.injEq]
    constructor
    · rintro ⟨h1, h2⟩; exact ⟨m, e, ⟨h1, rfl, rfl⟩, h2⟩
    · rintro ⟨m1, e1, ⟨h1, h2, _⟩, h3⟩; exact ⟨h1, h2 ▸ h3⟩

theorem finPos_val_pos (x : F64) (h : x.FinPos) : 0 < x.val := by
  obtain ⟨m, e, rfl, hm⟩ := (finPos_iff x).1 h
  rw [val_fin_false]
  have : (0 : ℚ) < m := by exact_mod_cast hm
  positivity

/-- Rounding a positive fraction in the normal range: a positive finite datum with
relative error at most `2^-53`. -/
theorem roundRat_pos (n d : Nat) (hn : 0 < n) (hd : 0 < d)
    (hlo : normalMin ≤ (n : ℚ) / d) (hhi : (n : ℚ) / d < safeMax) :
    (roundRat false n d).FinPos ∧
      |(roundRat false n d).val - (n : ℚ) / d| ≤ (n : ℚ) / d * u53 := by
  unfold normalMin at hlo
  unfold safeMax at hhi
  unfold u53
  obtain ⟨m, e, h1, h2⟩ := roundRat_normal false n d hn hd hlo hhi
  rw [h1, val_fin_false]
  refine ⟨?_, h2⟩
  have hρ : (0 : ℚ) < (n : ℚ) / d := by
    have : (0 : ℚ) < n := by exact_mod_cast hn
    have : (0 : ℚ) < d := by exact_mod_cast hd
    positivity
  have hu : (2 : ℚ) ^ (-53 : ℤ) < 1 := by norm_num [zpow_neg]
  have h3 := (abs_le.1 h2).1
  have h4 : (0 : ℚ) < (m : ℚ) * (2 : ℚ) ^ e := by nlinarith
  refine ⟨rfl, ?_⟩
  rcases Nat.eq_zero_or_pos m with h | h
  · rw [h] at h4; simp at h4
  · exact h

theorem fdiv_spec (x y : F64) (hx : x.FinPos) (hy : y.FinPos)
    (hlo : normalMin ≤ x.val / y.val) (hhi : x.val / y.val < safeMax) :
    (fdiv x y).FinPos ∧
      |(fdiv x y).val - x.val / y.val| ≤ x.val / y.val * u53 := by
  obtain ⟨m1, e1, rfl, h1⟩ := (finPos_iff x).1 hx
  obtain ⟨m2, e2, rfl, h2⟩ := (finPos_iff y).1 hy
  have hq : ((m1 * 2 ^ (e1 - e2).toNat : Nat) : ℚ) / ((m2 * 2 ^ (e2 - e1).toNat : Nat) : ℚ)
      = (F64.fin false m1 e1).val / (F64.fin false m2 e2).val := by
    rw [val_fin_false, val_fin_false]
    have := frac_shift m1 m2 (e2 - e1)
    rw [neg_sub] at this
    rw [this, zpow_sub₀ (by norm_num)]
    have hm2 : (m2 : ℚ) ≠ 0 := by exact_mod_cast (ne_of_gt h2)
    field_simp
  have hf : fdiv (F64.fin false m1 e1) (F64.fin false m2 e2)
      = roundRat false (m1 * 2 ^ (e1 - e2).toNat) (m2 * 2 ^ (e2 - e1).toNat) := by
    simp [fdiv, ne_of_gt h2]
  rw [hf, ← hq]
  rw [← hq] at hlo hhi
  exact roundRat_pos _ _ (Nat.mul_pos h1 (by positivity)) (Nat.mul_pos h2 (by positivity)) hlo hhi

theorem fadd_spec (x y : F64) (hx : x.FinPos) (hy : y.FinPos)
    (hlo : normalMin ≤ x.val + y.val) (hhi : x.val + y.val < safeMax) :
    (fadd x y).FinPos ∧
      |(fadd x y).val - (x.val + y.val)| ≤ (x.val + y.val) * u53 := by
  obtain ⟨m1, e1, rfl, h1⟩ := (finPos_iff x).1 hx
  obtain ⟨m2, e2, rfl, h2⟩ := (finPos_iff y).1 hy
  set e := min e1 e2 with he
  set c : Nat := m1 * 2 ^ (e1 - e).toNat + m2 * 2 ^ (e2 - e).toNat with hc
  have hcpos : 0 < c := Nat.add_pos_left (Nat.mul_pos h1 (by positivity)) _
  have hf : fadd (F64.fin false m1 e1) (F64.fin false m2 e2)
      = roundRat false (c * 2 ^ e.toNat) (2 ^ (-e).toNat) := by
    have hci : sgn false * ((m1 * 2 ^ (e1 - e).toNat : Nat) : ℤ)
        + sgn false * ((m2 * 2 ^ (e2 - e).toNat : Nat) : ℤ) = (c : ℤ) := by
      simp [sgn, hc]
    simp only [fadd, ← he, hci]
    have : ¬ ((c : ℤ) = 0) := by exact_mod_cast (ne_of_gt hcpos)
    rw [if_neg this]
    have : ¬ ((c : ℤ) < 0) := by omega
    simp [this]
  have hq : ((c * 2 ^ e.toNat : Nat) : ℚ) / ((2 ^ (-e).toNat : Nat) : ℚ)
      = (F64.fin false m1 e1).val + (F64.fin false m2 e2).val := by
    rw [val_fin_false, val_fin_false]
    have a1 : (2 : ℚ) ^ e1 = (2 : ℚ) ^ (e1 - e).toNat * (2 : ℚ) ^ e := by
      rw [← zpow_natCast, ← zpow_add₀ (by norm_num)]
      congr 1
      have : e ≤ e1 := min_le_left _ _
      omega
    have a2 : (2 : ℚ) ^ e2 = (2 : ℚ) ^ (e2 - e).toNat * (2 : ℚ) ^ e := by
      rw [← zpow_natCast, ← zpow_add₀ (by norm_num)]
      congr 1
      have : e ≤ e2 := min_le_right _ _
      omega
    rw [a1, a2, two_zpow_split e, hc]
    push_cast
    have h1 : (2 : ℚ) ^ (-e).toNat ≠ 0 := by positivity
    field_simp
    ring
  rw [hf, ← hq]
  rw [← hq] at hlo hhi
  exact roundRat_pos _ _ (Nat.mul_pos hcpos (by positivity)) (by positivity) hlo hhi

theorem fmul_spec (x y : F64) (hx : x.FinPos) (hy : y.FinPos)
    (hlo : normalMin ≤ x.val * y.val) (hhi : x.val * y.val < safeMax) :
    (fmul x y).FinPos ∧
      |(fmul x y).val - x.val * y.val| ≤ x.val * y.val * u53 := by
  obtain ⟨m1, e1, rfl, h1⟩ := (finPos_iff x).1 hx
  obtain ⟨m2, e2, rfl, h2⟩ := (finPos_iff y).1 hy
  have hf : fmul (F64.fin false m1 e1) (F64.fin false m2 e2)
      = roundRat false (m1 * m2 * 2 ^ (e1 + e2).toNat) (2 ^ (-(e1 + e2)).toNat) := by
    simp [fmul]
  have hq : ((m1 * m2 * 2 ^ (e1 + e2).toNat : Nat) : ℚ) / ((2 ^ (-(e1 + e2)).toNat : Nat) : ℚ)
      = (F64.fin false m1 e1).val * (F64.fin false m2 e2).val := by
    rw [val_fin_false, val_fin_false]
    have : (2 : ℚ) ^ e1 * (2 : ℚ) ^ e2 = (2 : ℚ) ^ (e1 + e2) := (zpow_add₀ (by norm_num) _ _).symm
    rw [mul_mul_mul_comm, this, two_zpow_split (e1 + e2)]
    push_cast
    ring
  rw [hf, ← hq]
  rw [← hq] at hlo hhi
  exact roundRat_pos _ _ (Nat.mul_pos (Nat.mul_pos h1 h2) (by positivity)) (by positivity) hlo hhi

/-- The square root of a positive well-formed datum: a positive finite datum `y`
with `|y^2 - x| ≤ y^2 * 2^-52`. -/
theorem fsqrt_spec (x : F64) (hx : x.FinPos) (hwf : x.WF) :
    (fsqrt x).FinPos ∧
      |(fsqrt x).val ^ 2 - x.val| ≤ (fsqrt x).val ^ 2 * (2 * u53) := by
  obtain ⟨m, e, rfl, hm⟩ := (finPos_iff x).1 hx
  obtain ⟨w1, -, -, -⟩ := hwf
  obtain ⟨l1, l2⟩ := flog2_spec m hm
  have hL : flog2 m ≤ 52 := by
    by_contra hc
    have : 2 ^ 53 ≤ 2 ^ flog2 m := Nat.pow_le_pow_right (by norm_num) (by omega)
    omega
  set t : ℤ := (flog2 m : ℤ) + e - 104 with ht
  set r : ℤ := t / 2 with hr
  set sh : Nat := (e - 2 * r).toNat with hsh
  set a : Nat := m * 2 ^ sh with ha
  have hsh1 : (sh : ℤ) = e - 2 * r := by omega
  have hsh2 : 104 ≤ flog2 m + sh := by omega
  have ha1 : 2 ^ 104 ≤ a := by
    calc 2 ^ 104 ≤ 2 ^ (flog2 m + sh) := Nat.pow_le_pow_right (by norm_num) hsh2
      _ = 2 ^ flog2 m * 2 ^ sh := pow_add _ _ _
      _ ≤ m * 2 ^ sh := Nat.mul_le_mul_right _ l1
  obtain ⟨s1, s2⟩ := isqrt_spec a
  set q := isqrt a with hq
  have hq52 : 2 ^ 52 ≤ q := by
    by_contra hc
    have h1 : q + 1 ≤ 2 ^ 52 := by omega
    have h2 : (q + 1) * (q + 1) ≤ 2 ^ 52 * 2 ^ 52 := Nat.mul_le_mul h1 h1
    have h3 : (2 : Nat) ^ 52 * 2 ^ 52 = 2 ^ 104 := by norm_num
    omega
  have hval : (F64.fin false m e).val = (a : ℚ) * (2 : ℚ) ^ (2 * r) := by
    rw [val_fin_false, ha]
    push_cast
    rw [mul_assoc, ← zpow_natCast, ← zpow_add₀ (by norm_num), hsh1]
    congr 2
    ring
  have key : ∀ m1 : Nat, 2 ^ 52 ≤ m1 → (m1 * m1 ≤ a + m1) → (a ≤ m1 * m1 + m1) →
      (F64.fin false m1 r).FinPos ∧
      |(F64.fin false m1 r).val ^ 2 - (F64.fin false m e).val|
        ≤ (F64.fin false m1 r).val ^ 2 * (2 * u53) := by
    intro m1 hm1 b1 b2
    have hm1pos : 0 < m1 := lt_of_lt_of_le (by norm_num) hm1
    refine ⟨⟨rfl, hm1pos⟩, ?_⟩
    rw [hval, val_fin_false]
    have hp : (0 : ℚ) < (2 : ℚ) ^ (2 * r) := by positivity
    have e1 : ((m1 : ℚ) * (2 : ℚ) ^ r) ^ 2 = (m1 : ℚ) ^ 2 * (2 : ℚ) ^ (2 * r) := by
      rw [mul_pow, ← zpow_natCast ((2 : ℚ) ^ r), ← zpow_mul]
      congr 2
      push_cast
      ring
    rw [e1, ← sub_mul, abs_mul, abs_of_pos hp, mul_right_comm]
    apply mul_le_mul_of_nonneg_right _ (le_of_lt hp)
    have b1q : (m1 : ℚ) * m1 ≤ a + m1 := by exact_mod_cast b1
    have b2q : (a : ℚ) ≤ m1 * m1 + m1 := by exact_mod_cast b2
    have hm1q : (2 : ℚ) ^ 52 ≤ m1 := by exact_mod_cast hm1
    have h52 : 2 * u53 = 1 / 2 ^ 52 := by unfold u53; norm_num [zpow_neg]
    have hm1q0 : (0 : ℚ) < m1 := by exact_mod_cast hm1pos
    have hb : (m1 : ℚ) ≤ (m1 : ℚ) ^ 2 * (2 * u53) := by
      rw [h52, mul_one_div, le_div_iff₀ (by positivity)]
      nlinarith
    rw [abs_le]
    constructor <;> nlinarith
  have hfs : fsqrt (F64.fin false m e)
      = if a ≤ q * q + q then F64.fin false q r else F64.fin false (q + 1) r := by
    simp [fsqrt, ne_of_gt hm, hq, ha, hsh, hr, ht]
  rw [hfs]
  split_ifs with h
  · exact key q hq52 (by omega) h
  · refine key (q + 1) (by omega) ?_ ?_
    · have : (q + 1) * (q + 1) = q * q + q + (q + 1) := by ring
      omega
    · have : (q + 1) * (q + 1) = q * q + q + (q + 1) := by ring
      omega

theorem abs_rel_bounds (a b u : ℚ) (h : |a - b| ≤ b * u) : b * (1 - u) ≤ a ∧ a ≤ b * (1 + u) := by
  obtain ⟨h1, h2⟩ := abs_le.1 h
  constructor <;> linarith

theorem sq_dist_bound (u w X : ℚ) (hl : X * (1 - 8 * u) ≤ w) (hh : w ≤ X * (1 + 8 * u)) :
    (w - X) ^ 2 ≤ 64 * (u ^ 2 * X ^ 2) := by
  have b1 : -(8 * u * X) ≤ w - X := by linarith
  have b2 : w - X ≤ 8 * u * X := by linarith
  calc (w - X) ^ 2 ≤ (8 * u * X) ^ 2 := sq_le_sq' b1 b2
    _ = 64 * (u ^ 2 * X ^ 2) := by ring

theorem newton_poly_upper (u w X : ℚ) (hu0 : 0 < u) (hu : u ≤ 1 / 1000) (hX : 0 < X)
    (hl : X * (1 - 8 * u) ≤ w) (hh : w ≤ X * (1 + 8 * u)) :
    ((1 + u) ^ 2 * (w + X * (1 + u))) ^ 2 ≤ 4 * (w * X) * (1 + 8 * u) := by
  have hw : 0 < w := lt_of_lt_of_le (mul_pos hX (by linarith)) hl
  have hwX : 0 < w * X := mul_pos hw hX
  have hdw := sq_dist_bound u w X hl hh
  have hX2 : 0 < X ^ 2 := by positivity
  have hu2 : u ^ 2 ≤ u / 1000 := by
    have := mul_le_mul_of_nonneg_left hu hu0.le
    calc u ^ 2 = u * u := by ring
      _ ≤ u * (1 / 1000) := this
      _ = u / 1000 := by ring
  have c1 : u ^ 2 * X ^ 2 ≤ u / 1000 * X ^ 2 := mul_le_mul_of_nonneg_right hu2 hX2.le
  have c2 : u * (X * (1 - 8 * u) * X) ≤ u * (w * X) :=
    mul_le_mul_of_nonneg_left (mul_le_mul_of_nonneg_right hl hX.le) hu0.le
  have c3 : 0 < u * X ^ 2 := by positivity
  have up1 : (w + X * (1 + u)) ^ 2 ≤ 4 * (w * X) * (1 + 11 / 10 * u) := by
    have e : (w + X * (1 + u)) ^ 2
        = (w - X) ^ 2 + 4 * (w * X) + 2 * (u * (w * X)) + 2 * (u * X ^ 2) + u ^ 2 * X ^ 2 := by
      ring
    have e2 : u * (X * (1 - 8 * u) * X) = u * X ^ 2 - 8 * (u ^ 2 * X ^ 2) := by ring
    rw [e]
    rw [e2] at c2
    linarith
  have up2 : (1 + u) ^ 2 ≤ 1 + 201 / 100 * u := by
    have e : (1 + u) ^ 2 = 1 + 2 * u + u ^ 2 := by ring
    rw [e]; linarith
  have up3 : ((1 + u) ^ 2) ^ 2 ≤ 1 + 403 / 100 * u := by
    have h1 : ((1 + u) ^ 2) ^ 2 ≤ (1 + 201 / 100 * u) ^ 2 :=
      pow_le_pow_left₀ (by positivity) up2 2
    have e : (1 + 201 / 100 * u) ^ 2 = 1 + 402 / 100 * u + 40401 / 10000 * u ^ 2 := by ring
    rw [e] at h1
    linarith
  rw [mul_pow]
  have s1 : ((1 + u) ^ 2) ^ 2 * (w + X * (1 + u)) ^ 2
      ≤ (1 + 403 / 100 * u) * (4 * (w * X) * (1 + 11 / 10 * u)) :=
    mul_le_mul up3 up1 (by positivity) (by positivity)
  have s2 : (1 + 403 / 100 * u) * (1 + 11 / 10 * u) ≤ 1 + 8 * u := by
    have e : (1 + 403 / 100 * u) * (1 + 11 / 10 * u)
        = 1 + 513 / 100 * u + 4433 / 1000 * u ^ 2 := by ring
    rw [e]; linarith
  have s3 := mul_le_mul_of_nonneg_left s2 (show 0 ≤ 4 * (w * X) by positivity)
  calc ((1 + u) ^ 2) ^ 2 * (w + X * (1 + u)) ^ 2
      ≤ (1 + 403 / 100 * u) * (4 * (w * X) * (1 + 11 / 10 * u)) := s1
    _ = 4 * (w * X) * ((1 + 403 / 100 * u) * (1 + 11 / 10 * u)) := by ring
    _ ≤ 4 * (w * X) * (1 + 8 * u) := s3

theorem newton_poly_lower (u w X : ℚ) (hu0 : 0 < u) (hu : u ≤ 1 / 1000) (hX : 0 < X)
    (hl : X * (1 - 8 * u) ≤ w) (hh : w ≤ X * (1 + 8 * u)) :
    4 * (w * X) * (1 - 8 * u) ≤ ((1 - u) ^ 2 * (w + X * (1 - u))) ^ 2 := by
  have hw : 0 < w := lt_of_lt_of_le (mul_pos hX (by linarith)) hl
  have hwX : 0 < w * X := mul_pos hw hX
  have hX2 : 0 < X ^ 2 := by positivity
  have c3 : 0 < u * X ^ 2 := by positivity
  have c4 : 0 ≤ u ^ 2 := by positivity
  have c2 : u * (w * X) ≤ u * (X * (1 + 8 * u) * X) :=
    mul_le_mul_of_nonneg_left (mul_le_mul_of_nonneg_right hh hX.le) hu0.le
  have c5 : u * (X * (1 - 8 * u) * X) ≤ u * (w * X) :=
    mul_le_mul_of_nonneg_left (mul_le_mul_of_nonneg_right hl hX.le) hu0.le
  have hu2 : u ^ 2 ≤ u / 1000 := by
    have := mul_le_mul_of_nonneg_left hu hu0.le
    calc u ^ 2 = u * u := by ring
      _ ≤ u * (1 / 1000) := this
      _ = u / 1000 := by ring
  have c1 : u ^ 2 * X ^ 2 ≤ u / 1000 * X ^ 2 := mul_le_mul_of_nonneg_right hu2 hX2.le
  have lo1 : 4 * (w * X) * (1 - 11 / 10 * u) ≤ (w + X * (1 - u)) ^ 2 := by
    have e : (w + X * (1 - u)) ^ 2
        = (w - X) ^ 2 + 4 * (w * X) - 2 * (u * (w * X)) - 2 * (u * X ^ 2) + u ^ 2 * X ^ 2 := by
      ring
    have e2 : u * (X * (1 - 8 * u) * X) = u * X ^ 2 - 8 * (u ^ 2 * X ^ 2) := by ring
    have c0 : 0 ≤ (w - X) ^ 2 := by positivity
    have c6 : 0 ≤ u ^ 2 * X ^ 2 := by positivity
    rw [e]
    rw [e2] at c5
    linarith
  have lo2 : 1 - 2 * u ≤ (1 - u) ^ 2 := by
    have e : (1 - u) ^ 2 = 1 - 2 * u + u ^ 2 := by ring
    rw [e]; linarith
  have lo3 : 1 - 4 * u ≤ ((1 - u) ^ 2) ^ 2 := by
    have h1 : (1 - 2 * u) ^ 2 ≤ ((1 - u) ^ 2) ^ 2 := pow_le_pow_left₀ (by linarith) lo2 2
    have e : (1 - 2 * u) ^ 2 = 1 - 4 * u + 4 * u ^ 2 := by ring
    rw [e] at h1
    linarith
  rw [mul_pow]
  have s1 : (1 - 4 * u) * (4 * (w * X) * (1 - 11 / 10 * u))
      ≤ ((1 - u) ^ 2) ^ 2 * (w + X * (1 - u)) ^ 2 :=
    mul_le_mul lo3 lo1 (mul_nonneg (by positivity) (by linarith)) (by positivity)
  have s2 : 1 - 8 * u ≤ (1 - 4 * u) * (1 - 11 / 10 * u) := by
    have e : (1 - 4 * u) * (1 - 11 / 10 * u) = 1 - 51 / 10 * u + 44 / 10 * u ^ 2 := by ring
    rw [e]; linarith
  have s3 := mul_le_mul_of_nonneg_left s2 (show 0 ≤ 4 * (w * X) by positivity)
  calc 4 * (w * X) * (1 - 8 * u) ≤ 4 * (w * X) * ((1 - 4 * u) * (1 - 11 / 10 * u)) := s3
    _ = (1 - 4 * u) * (4 * (w * X) * (1 - 11 / 10 * u)) := by ring
    _ ≤ ((1 - u) ^ 2) ^ 2 * (w + X * (1 - u)) ^ 2 := s1

/-- One Newton update with three roundings keeps `y^2` within `8u` of `X`. -/
theorem newton_round_inv (u X y q t y1 : ℚ) (hu0 : 0 < u) (hu : u ≤ 1 / 1000)
    (hX : 0 < X) (hy : 0 < y)
    (hyl : X * (1 - 8 * u) ≤ y ^ 2) (hyu : y ^ 2 ≤ X * (1 + 8 * u))
    (hq1 : X / y * (1 - u) ≤ q) (hq2 : q ≤ X / y * (1 + u))
    (ht1 : (y + q) * (1 - u) ≤ t) (ht2 : t ≤ (y + q) * (1 + u))
    (hy1 : 1 / 2 * t * (1 - u) ≤ y1) (hy2 : y1 ≤ 1 / 2 * t * (1 + u)) :
    X * (1 - 8 * u) ≤ y1 ^ 2 ∧ y1 ^ 2 ≤ X * (1 + 8 * u) := by
  have hy0 : y ≠ 0 := ne_of_gt hy
  have hXy : X / y * y = X := div_mul_cancel₀ X hy0
  have hwpos : 0 < y ^ 2 := by positivity
  have h1u : 0 < 1 - u := by linarith
  have h1u2 : 0 < 1 + u := by linarith
  have hXypos : 0 < X / y := by positivity
  have hqy1 : X * (1 - u) ≤ q * y := by
    have := mul_le_mul_of_nonneg_right hq1 (le_of_lt hy)
    calc X * (1 - u) = X / y * (1 - u) * y := by rw [mul_right_comm, hXy]
      _ ≤ q * y := this
  have hqy2 : q * y ≤ X * (1 + u) := by
    have := mul_le_mul_of_nonneg_right hq2 (le_of_lt hy)
    calc q * y ≤ X / y * (1 + u) * y := this
      _ = X * (1 + u) := by rw [mul_right_comm, hXy]
  have hqpos : 0 < q := lt_of_lt_of_le (mul_pos hXypos h1u) hq1
  have htpos : 0 < t := lt_of_lt_of_le (mul_pos (by linarith) h1u) ht1
  have hy1pos : 0 < y1 := lt_of_lt_of_le (mul_pos (by linarith) h1u) hy1
  have e1 : (y + q) * y = y ^ 2 + q * y := by ring
  have hA1 : (1 - u) ^ 2 * (y ^ 2 + X * (1 - u)) ≤ 2 * y1 * y := by
    have a1 : (1 - u) * ((y + q) * (1 - u)) ≤ (1 - u) * t := mul_le_mul_of_nonneg_left ht1 h1u.le
    have a3 : (1 - u) ^ 2 * (y + q) ≤ 2 * y1 := by
      calc (1 - u) ^ 2 * (y + q) = (1 - u) * ((y + q) * (1 - u)) := by ring
        _ ≤ (1 - u) * t := a1
        _ ≤ 2 * y1 := by linarith
    have a4 : (1 - u) ^ 2 * (y + q) * y ≤ 2 * y1 * y := mul_le_mul_of_nonneg_right a3 hy.le
    have a5 : (1 - u) ^ 2 * (y ^ 2 + X * (1 - u)) ≤ (1 - u) ^ 2 * (y + q) * y := by
      rw [mul_assoc, e1]
      apply mul_le_mul_of_nonneg_left _ (by positivity)
      linarith
    linarith
  have hA2 : 2 * y1 * y ≤ (1 + u) ^ 2 * (y ^ 2 + X * (1 + u)) := by
    have a1 : (1 + u) * t ≤ (1 + u) * ((y + q) * (1 + u)) :=
      mul_le_mul_of_nonneg_left ht2 h1u2.le
    have a3 : 2 * y1 ≤ (1 + u) ^ 2 * (y + q) := by
      calc 2 * y1 ≤ (1 + u) * t := by linarith
        _ ≤ (1 + u) * ((y + q) * (1 + u)) := a1
        _ = (1 + u) ^ 2 * (y + q) := by ring
    have a4 : 2 * y1 * y ≤ (1 + u) ^ 2 * (y + q) * y := mul_le_mul_of_nonneg_right a3 hy.le
    have a5 : (1 + u) ^ 2 * (y + q) * y ≤ (1 + u) ^ 2 * (y ^ 2 + X * (1 + u)) := by
      rw [mul_assoc, e1]
      apply mul_le_mul_of_nonneg_left _ (by positivity)
      linarith
    linarith
  have hAsq : (2 * y1 * y) ^ 2 = 4 * y ^ 2 * y1 ^ 2 := by ring
  have hA0 : 0 ≤ (1 - u) ^ 2 * (y ^ 2 + X * (1 - u)) :=
    mul_nonneg (by positivity) (add_nonneg hwpos.le (mul_nonneg hX.le h1u.le))
  have hAu : (2 * y1 * y) ^ 2 ≤ 4 * (y ^ 2 * X) * (1 + 8 * u) :=
    le_trans (pow_le_pow_left₀ (by positivity) hA2 2) (newton_poly_upper u _ X hu0 hu hX hyl hyu)
  have hAl : 4 * (y ^ 2 * X) * (1 - 8 * u) ≤ (2 * y1 * y) ^ 2 :=
    le_trans (newton_poly_lower u _ X hu0 hu hX hyl hyu) (pow_le_pow_left₀ hA0 hA1 2)
  rw [hAsq] at hAu hAl
  constructor
  · have : 4 * y ^ 2 * (X * (1 - 8 * u)) ≤ 4 * y ^ 2 * y1 ^ 2 := by linarith
    exact le_of_mul_le_mul_left this (by positivity)
  · have : 4 * y ^ 2 * y1 ^ 2 ≤ 4 * y ^ 2 * (X * (1 + 8 * u)) := by linarith
    exact le_of_mul_le_mul_left this (by positivity)

theorem half_eq : binary64.lit 1 2 = F64.fin false (2 ^ 52) (-53) := by decide

theorem half_val : (binary64.lit 1 2).val = 1 / 2 := by
  rw [half_eq, val_fin_false]
  norm_num [zpow_neg]

theorem half_finPos : (binary64.lit 1 2).FinPos := by
  rw [half_eq]; exact ⟨rfl, by norm_num⟩

theorem wf_val_bounds (x : F64) (hx : x.FinPos) (hwf : x.WF) :
    (2 : ℚ) ^ (-1074 : ℤ) ≤ x.val ∧ x.val < (2 : ℚ) ^ (1024 : ℤ) := by
  obtain ⟨m, e, rfl, hm⟩ := (finPos_iff x).1 hx
  obtain ⟨w1, w2, w3, -⟩ := hwf
  rw [val_fin_false]
  have hp : ∀ k : ℤ, (0 : ℚ) < (2 : ℚ) ^ k := fun k => by positivity
  constructor
  · have h1 : (1 : ℚ) ≤ m := by exact_mod_cast hm
    have h2 : (2 : ℚ) ^ (-1074 : ℤ) ≤ (2 : ℚ) ^ e := zpow_le_zpow_right₀ (by norm_num) w2
    calc (2 : ℚ) ^ (-1074 : ℤ) ≤ (2 : ℚ) ^ e := h2
      _ = 1 * (2 : ℚ) ^ e := (one_mul _).symm
      _ ≤ m * (2 : ℚ) ^ e := mul_le_mul_of_nonneg_right h1 (hp e).le
  · have h1 : (m : ℚ) < (2 : ℚ) ^ (53 : ℤ) := by
      rw [show (2 : ℚ) ^ (53 : ℤ) = ((2 ^ 53 : Nat) : ℚ) by norm_num]
      exact_mod_cast w1
    have h2 : (2 : ℚ) ^ e ≤ (2 : ℚ) ^ (971 : ℤ) := zpow_le_zpow_right₀ (by norm_num) w3
    calc (m : ℚ) * (2 : ℚ) ^ e < (2 : ℚ) ^ (53 : ℤ) * (2 : ℚ) ^ e :=
          mul_lt_mul_of_pos_right h1 (hp e)
      _ ≤ (2 : ℚ) ^ (53 : ℤ) * (2 : ℚ) ^ (971 : ℤ) := mul_le_mul_of_nonneg_left h2 (hp 53).le
      _ = (2 : ℚ) ^ (1024 : ℤ) := by rw [← zpow_add₀ (by norm_num)]; norm_num

theorem seed_bounds (u w X : ℚ) (hu0 : 0 < u) (hu : u ≤ 1 / 1000) (hw : 0 ≤ w)
    (h : |w - X| ≤ w * (2 * u)) : X * (1 - 8 * u) ≤ w ∧ w ≤ X * (1 + 8 * u) := by
  obtain ⟨a, b⟩ := abs_le.1 h
  have hwu : 0 ≤ w * u := mul_nonneg hw hu0.le
  have hwuu : w * u * u ≤ w * u * (1 / 1000) := mul_le_mul_of_nonneg_left hu hwu
  have hwuu0 : 0 ≤ w * u * u := mul_nonneg hwu hu0.le
  have e1 : w * (1 + 2 * u) * (1 - 8 * u) = w - 6 * (w * u) - 16 * (w * u * u) := by ring
  have e2 : w * (1 - 2 * u) * (1 + 8 * u) = w + 6 * (w * u) - 16 * (w * u * u) := by ring
  constructor
  · have h1 : X ≤ w * (1 + 2 * u) := by linarith
    have h2 : X * (1 - 8 * u) ≤ w * (1 + 2 * u) * (1 - 8 * u) :=
      mul_le_mul_of_nonneg_right h1 (by linarith)
    linarith
  · have h1 : w * (1 - 2 * u) ≤ X := by linarith
    have h2 : w * (1 - 2 * u) * (1 + 8 * u) ≤ X * (1 + 8 * u) :=
      mul_le_mul_of_nonneg_right h1 (by linarith)
    linarith

theorem nearRoot_seed (x : F64) (hx : x.FinPos) (hwf : x.WF) : NearRoot x (fsqrt x) := by
  obtain ⟨h1, h2⟩ := fsqrt_spec x hx hwf
  exact ⟨h1, seed_bounds u53 _ _ u53_pos u53_small (by positivity) h2⟩

theorem sq_root_bounds (a b L Hh X Y u : ℚ) (hu0 : 0 ≤ u) (hu : u ≤ 1 / 1000)
    (ha : 0 < a) (hX1 : a ≤ X) (hX2 : X < b) (eL : L ^ 2 = a / 4)
    (hH : 0 < Hh) (eH : Hh ^ 2 = 4 * b)
    (hY : 0 < Y) (hl : X * (1 - 8 * u) ≤ Y ^ 2) (hh : Y ^ 2 ≤ X * (1 + 8 * u)) :
    L ≤ Y ∧ Y ≤ Hh ∧ Y / 2 ≤ X / Y ∧ X / Y ≤ 2 * Y := by
  have hX : 0 < X := lt_of_lt_of_le ha hX1
  have hXu : X * u ≤ X * (1 / 1000) := mul_le_mul_of_nonneg_left hu hX.le
  have hXu0 : 0 ≤ X * u := mul_nonneg hX.le hu0
  have hw1 : X / 2 ≤ Y ^ 2 := by linarith
  have hw2 : Y ^ 2 ≤ 2 * X := by linarith
  refine ⟨?_, ?_, ?_, ?_⟩
  · by_contra hc
    rw [not_le] at hc
    have := pow_lt_pow_left₀ hc hY.le (two_ne_zero)
    linarith
  · by_contra hc
    rw [not_le] at hc
    have := pow_lt_pow_left₀ hc hH.le (two_ne_zero)
    linarith
  · rw [le_div_iff₀ hY]
    have : Y / 2 * Y = Y ^ 2 / 2 := by ring
    linarith
  · rw [div_le_iff₀ hY]
    have : 2 * Y * Y = 2 * Y ^ 2 := by ring
    linarith

theorem nearRoot_step_bounds (lo hi L Hh u X Y q t : ℚ) (hu0 : 0 < u) (hu : u ≤ 1 / 1000)
    (n1 : lo ≤ L / 8) (n2 : 8 * Hh < hi) (r1 : L ≤ Y) (r2 : Y ≤ Hh) (hY : 0 < Y)
    (r3 : Y / 2 ≤ X / Y) (r4 : X / Y ≤ 2 * Y) :
    (lo ≤ X / Y ∧ X / Y < hi) ∧
    (X / Y * (1 - u) ≤ q → q ≤ X / Y * (1 + u) → lo ≤ Y + q ∧ Y + q < hi) ∧
    (X / Y * (1 - u) ≤ q → q ≤ X / Y * (1 + u) → (Y + q) * (1 - u) ≤ t → t ≤ (Y + q) * (1 + u) →
      lo ≤ 1 / 2 * t ∧ 1 / 2 * t < hi) := by
  have hd : 0 < X / Y := by linarith
  have hdu : X / Y * u ≤ X / Y * (1 / 1000) := mul_le_mul_of_nonneg_left hu hd.le
  have hdu0 : 0 ≤ X / Y * u := mul_nonneg hd.le hu0.le
  refine ⟨⟨by linarith, by linarith⟩, ?_, ?_⟩
  · intro q1 q2
    constructor <;> linarith
  · intro q1 q2 t1 t2
    have hs : 0 < Y + q := by linarith
    have hsu : (Y + q) * u ≤ (Y + q) * (1 / 1000) := mul_le_mul_of_nonneg_left hu hs.le
    have hsu0 : 0 ≤ (Y + q) * u := mul_nonneg hs.le hu0.le
    constructor <;> linarith

theorem nearRoot_step (x y : F64) (hx : x.FinPos) (hwf : x.WF) (h : NearRoot x y) :
    NearRoot x (fmul (binary64.lit 1 2) (fadd y (fdiv x y))) := by
  obtain ⟨hX1, hX2⟩ := wf_val_bounds x hx hwf
  obtain ⟨hy, hl, hh⟩ := h
  have hX := finPos_val_pos x hx
  have hY := finPos_val_pos y hy
  have eL : ((2 : ℚ) ^ (-538 : ℤ)) ^ 2 = (2 : ℚ) ^ (-1074 : ℤ) / 4 := by
    rw [← zpow_natCast, ← zpow_mul]; norm_num [zpow_neg]
  have eH : ((2 : ℚ) ^ (513 : ℤ)) ^ 2 = 4 * (2 : ℚ) ^ (1024 : ℤ) := by
    rw [← zpow_natCast, ← zpow_mul]; norm_num
  obtain ⟨r1, r2, r3, r4⟩ := sq_root_bounds _ _ _ _ x.val y.val u53 u53_pos.le u53_small
    (by positivity) hX1 hX2 eL (by positivity) eH hY hl hh
  have n1 : normalMin ≤ (2 : ℚ) ^ (-538 : ℤ) / 8 := by unfold normalMin; norm_num [zpow_neg]
  have n2 : 8 * (2 : ℚ) ^ (513 : ℤ) < safeMax := by unfold safeMax; norm_num
  obtain ⟨⟨b1, b2⟩, b3, b4⟩ := nearRoot_step_bounds normalMin safeMax _ _ u53 x.val y.val
    (fdiv x y).val (fadd y (fdiv x y)).val u53_pos u53_small n1 n2 r1 r2 hY r3 r4
  obtain ⟨q1, q2⟩ := fdiv_spec x y hx hy b1 b2
  obtain ⟨q3, q4⟩ := abs_rel_bounds _ _ _ q2
  obtain ⟨b5, b6⟩ := b3 q3 q4
  obtain ⟨t1, t2⟩ := fadd_spec y (fdiv x y) hy q1 b5 b6
  obtain ⟨t3, t4⟩ := abs_rel_bounds _ _ _ t2
  obtain ⟨b7, b8⟩ := b4 q3 q4 t3 t4
  have hv := half_val
  obtain ⟨p1, p2⟩ := fmul_spec (binary64.lit 1 2) (fadd y (fdiv x y)) half_finPos t1
    (by rw [hv]; exact b7) (by rw [hv]; exact b8)
  rw [hv] at p2
  obtain ⟨p3, p4⟩ := abs_rel_bounds _ _ _ p2
  exact ⟨p1, newton_round_inv _ x.val y.val _ _ _ u53_pos u53_small hX hY hl hh q3 q4 t3 t4 p3 p4⟩

theorem nrStep_set1 (A : Arith α) (x half y : α) :
    nrStep A (_mm256_set1_pd x) (_mm256_set1_pd half) (_mm256_set1_pd y)
      = _mm256_set1_pd (nrLane A x half y) := rfl

theorem nrLoop_set1 (A : Arith α) (x half : α) : ∀ (k : Nat) (y : α),
    nrLoop A (_mm256_set1_pd x) (_mm256_set1_pd half) k (_mm256_set1_pd y)
      = _mm256_set1_pd (nrLaneLoop A x half k y) := by
  intro k
  induction k with
  | zero => intro y; rfl
  | succ j ih => intro y; rw [nrLoop, nrStep_set1, ih]; rfl

theorem nrSeed_eq (A : Arith α) (x : α) : nrSeed A x = _mm256_set1_pd (A.sqrt x) := rfl

theorem sqrt_simd_optimized_eq (A : Arith α) (x : α) :
    sqrt_simd_optimized A x = nrLaneLoop A x (A.lit 1 2) 5 (A.sqrt x) := by
  rw [sqrt_simd_optimized]
  simp only [nrSeed_eq, nrLoop_set1]
  rfl

theorem nearRoot_loop (x : F64) (hx : x.FinPos) (hwf : x.WF) : ∀ (k : Nat) (y : F64),
    NearRoot x y → NearRoot x (nrLaneLoop binary64 x (binary64.lit 1 2) k y) := by
  intro k
  induction k with
  | zero => intro y h; exact h
  | succ j ih => intro y h; exact ih _ (nearRoot_step x y hx hwf h)

theorem finPos_isFinite (x : F64) (h : x.FinPos) : x.isFinite = true := by
  obtain ⟨m, e, rfl, -⟩ := (finPos_iff x).1 h
  rfl

theorem close_of_sq_bounds (u X a b τ : ℚ) (hu0 : 0 < u) (hu : u ≤ 1 / 1000) (hX : 0 < X)
    (ha : 0 < a) (hb : 0 < b) (hτ : 0 < τ)
    (al : X * (1 - 8 * u) ≤ a ^ 2) (ah : a ^ 2 ≤ X * (1 + 8 * u))
    (bl : X * (1 - 8 * u) ≤ b ^ 2) (bh : b ^ 2 ≤ X * (1 + 8 * u))
    (hnum : 256 * u ^ 2 * X ≤ 4 * τ ^ 2 * (1 - 8 * u)) : |a - b| ≤ τ := by
  set c := X * (1 - 8 * u) with hc
  have hcpos : 0 < c := mul_pos hX (by linarith)
  have h1 : (a ^ 2 - b ^ 2) ^ 2 ≤ (16 * u * X) ^ 2 :=
    sq_le_sq' (by linarith) (by linarith)
  have h2 : c ≤ a * b := by
    by_contra hcon
    rw [not_le] at hcon
    have k1 : (a * b) ^ 2 < c ^ 2 := pow_lt_pow_left₀ hcon (by positivity) two_ne_zero
    have k2 : c * c ≤ a ^ 2 * b ^ 2 := mul_le_mul al bl hcpos.le (by positivity)
    have k3 : (a * b) ^ 2 = a ^ 2 * b ^ 2 := by ring
    have k4 : c ^ 2 = c * c := by ring
    linarith
  have h3 : 4 * c ≤ (a + b) ^ 2 := by
    have : (a + b) ^ 2 = a ^ 2 + 2 * (a * b) + b ^ 2 := by ring
    linarith
  have h4 : (a - b) ^ 2 * (a + b) ^ 2 = (a ^ 2 - b ^ 2) ^ 2 := by ring
  by_contra hcon
  rw [not_le] at hcon
  have h5 : τ ^ 2 < (a - b) ^ 2 := by
    rw [← sq_abs (a - b)]
    exact pow_lt_pow_left₀ hcon hτ.le two_ne_zero
  have h6 : τ ^ 2 * (4 * c) < (a - b) ^ 2 * (a + b) ^ 2 :=
    mul_lt_mul h5 h3 (by positivity) (by positivity)
  have h7 : 256 * u ^ 2 * X * X ≤ 4 * τ ^ 2 * (1 - 8 * u) * X :=
    mul_le_mul_of_nonneg_right hnum hX.le
  have h8 : (16 * u * X) ^ 2 = 256 * u ^ 2 * X * X := by ring
  have h9 : τ ^ 2 * (4 * c) = 4 * τ ^ 2 * (1 - 8 * u) * X := by rw [hc]; ring
  linarith

theorem rel_close_of_sq_bounds (u X a b ρ : ℚ) (hX : 0 < X)
    (ha : 0 < a) (hb : 0 < b) (hρ : 0 < ρ)
    (al : X * (1 - 8 * u) ≤ a ^ 2) (ah : a ^ 2 ≤ X * (1 + 8 * u))
    (bl : X * (1 - 8 * u) ≤ b ^ 2) (bh : b ^ 2 ≤ X * (1 + 8 * u))
    (hnum : 16 * u ≤ ρ * (1 - 8 * u)) : |a - b| ≤ ρ * b := by
  have h1 : |a ^ 2 - b ^ 2| ≤ 16 * u * X := abs_le.2 ⟨by linarith, by linarith⟩
  have h2 : |a - b| * (a + b) = |a ^ 2 - b ^ 2| := by
    rw [show a ^ 2 - b ^ 2 = (a - b) * (a + b) by ring, abs_mul, abs_of_pos (by linarith : 0 < a + b)]
  by_contra hcon
  rw [not_le] at hcon
  have h3 : ρ * b * b < |a - b| * (a + b) :=
    mul_lt_mul hcon (by linarith) hb (abs_nonneg _)
  have h4 : ρ * (X * (1 - 8 * u)) ≤ ρ * b ^ 2 := mul_le_mul_of_nonneg_left bl hρ.le
  have h5 : 16 * u * X ≤ ρ * (1 - 8 * u) * X := mul_le_mul_of_nonneg_right hnum hX.le
  have h6 : ρ * b * b = ρ * b ^ 2 := by ring
  have h7 : ρ * (X * (1 - 8 * u)) = ρ * (1 - 8 * u) * X := by ring
  linarith

theorem rel_tolerance_numeric : 16 * u53 ≤ (1 / 10 ^ 9 : ℚ) * (1 - 8 * u53) := by
  unfold u53
  norm_num [zpow_neg]

theorem tolerance_numeric (X : ℚ) (hX : X ≤ 10 ^ 12) :
    256 * u53 ^ 2 * X ≤ 4 * (1 / 10 ^ 9 : ℚ) ^ 2 * (1 - 8 * u53) := by
  have h1 : 256 * u53 ^ 2 * X ≤ 256 * u53 ^ 2 * 10 ^ 12 :=
    mul_le_mul_of_nonneg_left hX (by have := u53_pos; positivity)
  have h2 : 256 * u53 ^ 2 * 10 ^ 12 ≤ 4 * (1 / 10 ^ 9 : ℚ) ^ 2 * (1 - 8 * u53) := by
    unfold u53
    norm_num [zpow_neg]
  exact le_trans h1 h2

/-! ## The refinement kernel in binary64 -/

theorem sqrt_standard_2p47 :
    sqrt_standard binary64 (F64.fin false (2 ^ 52) (-5))
      = F64.fin false 6369051672525773 (-29) := by
  decide

theorem sqrt_simd_optimized_2p47 :
    sqrt_simd_optimized binary64 (F64.fin false (2 ^ 52) (-5))
      = F64.fin false 6369051672525772 (-29) := by
  decide

theorem sqrt_simd_optimized_zero :
    sqrt_simd_optimized binary64 (F64.fin false 0 (-1074)) = F64.nan := by
  decide

/-- C3, as stated, fails: on the input `2^47` the refinement kernel returns the neighbour of
the standard result, `2^-29 > 1e-9` away from it; and on the input `0.0` it returns NaN. -/
theorem optimized_tolerance_counterexample :
    (F64.fin false (2 ^ 52) (-5)).WF ∧ (F64.fin false (2 ^ 52) (-5)).NonNegFinite ∧
    (F64.fin false (2 ^ 52) (-5)).val = 2 ^ 47 ∧
    ¬ (sqrt_simd_optimized binary64 (F64.fin false (2 ^ 52) (-5))).closeTo
        (sqrt_standard binary64 (F64.fin false (2 ^ 52) (-5))) (1 / 10 ^ 9) ∧
    (F64.fin false 0 (-1074)).WF ∧ (F64.fin false 0 (-1074)).NonNegFinite ∧
    (F64.fin false 0 (-1074)).val = 0 ∧
    ¬ (sqrt_simd_optimized binary64 (F64.fin false 0 (-1074))).closeTo
        (sqrt_standard binary64 (F64.fin false 0 (-1074))) (1 / 10 ^ 9) := by
  refine ⟨by decide, by decide, ?_, ?_, by decide, by decide, ?_, ?_⟩
  · rw [val_fin_false]
    norm_num [zpow_neg]
  · rw [sqrt_standard_2p47, sqrt_simd_optimized_2p47]
    rintro ⟨-, -, h⟩
    rw [val_fin_false, val_fin_false] at h
    norm_num [zpow_neg, abs_le] at h
  · rw [val_fin_false]
    norm_num
  · rw [sqrt_simd_optimized_zero]
    rintro ⟨h, -⟩
    exact absurd h (by decide)

/-- C3, amended: for every strictly positive finite input `v` the result of
`sqrt_simd_optimized` after its 5 Newton-Raphson passes is finite and differs from
`sqrt_standard v` by at most `1e-9` times `sqrt_standard v`; and by at most `1e-9` when
`v ≤ 10^12`. -/
theorem optimized_close_to_standard (x : F64) (hwf : x.WF) (hpos : x.FinPos) :
    (sqrt_simd_optimized binary64 x).closeRel (sqrt_standard binary64 x) (1 / 10 ^ 9) ∧
    (x.val ≤ 10 ^ 12 →
      (sqrt_simd_optimized binary64 x).closeTo (sqrt_standard binary64 x) (1 / 10 ^ 9)) := by
  have h0 : NearRoot x (fsqrt x) := nearRoot_seed x hpos hwf
  have h5 := nearRoot_loop x hpos hwf 5 (fsqrt x) h0
  rw [sqrt_simd_optimized_eq]
  change F64.closeRel (nrLaneLoop binary64 x (binary64.lit 1 2) 5 (fsqrt x)) (fsqrt x) (1 / 10 ^ 9)
    ∧ (x.val ≤ 10 ^ 12 →
      F64.closeTo (nrLaneLoop binary64 x (binary64.lit 1 2) 5 (fsqrt x)) (fsqrt x) (1 / 10 ^ 9))
  obtain ⟨a1, a2, a3⟩ := h5
  obtain ⟨b1, b2, b3⟩ := h0
  have hX := finPos_val_pos x hpos
  refine ⟨⟨finPos_isFinite _ a1, finPos_isFinite _ b1, ?_⟩,
    fun hle => ⟨finPos_isFinite _ a1, finPos_isFinite _ b1, ?_⟩⟩
  · exact rel_close_of_sq_bounds u53 x.val _ _ _ hX (finPos_val_pos _ a1)
      (finPos_val_pos _ b1) (by norm_num) a2 a3 b2 b3 rel_tolerance_numeric
  · exact close_of_sq_bounds u53 x.val _ _ _ u53_pos u53_small hX (finPos_val_pos _ a1)
      (finPos_val_pos _ b1) (by norm_num) a2 a3 b2 b3 (tolerance_numeric x.val hle)

theorem val_three : (F64.fin false 6755399441055744 (-51)).val = 3 := by
  rw [val_fin_false]
  norm_num [zpow_neg]

theorem optimized_close_to_standard_witness :
    (F64.fin false 6755399441055744 (-51)).WF ∧ (F64.fin false 6755399441055744 (-51)).FinPos ∧
    (F64.fin false 6755399441055744 (-51)).val ≤ 10 ^ 12 ∧
    (sqrt_simd_optimized binary64 (F64.fin false 6755399441055744 (-51))).closeRel
      (sqrt_standard binary64 (F64.fin false 6755399441055744 (-51))) (1 / 10 ^ 9) ∧
    (sqrt_simd_optimized binary64 (F64.fin false 6755399441055744 (-51))).closeTo
      (sqrt_standard binary64 (F64.fin false 6755399441055744 (-51))) (1 / 10 ^ 9) :=
  have hle : (F64.fin false 6755399441055744 (-51)).val ≤ 10 ^ 12 := by
    rw [val_three]; norm_num
  have h := optimized_close_to_standard (F64.fin false 6755399441055744 (-51))
    (by decide) (by decide)
  ⟨by decide, by decide, hle, h.1, h.2 hle⟩

/-- C10: for every strictly positive finite input, the register used as divisor in each of
the 5 passes of `sqrt_simd_optimized` holds, on all four lanes, one strictly positive finite
value; no pass divides by zero. -/
theorem newton_divisors_positive (x : F64) (hwf : x.WF) (hpos : x.FinPos) :
    ∀ i : Nat, i < 5 →
      ∃ y : F64, nrDivisor binary64 x i = _mm256_set1_pd y ∧ y.FinPos ∧ 0 < y.val := by
  intro i _
  have h0 : NearRoot x (fsqrt x) := nearRoot_seed x hpos hwf
  have hk := nearRoot_loop x hpos hwf i (fsqrt x) h0
  refine ⟨nrLaneLoop binary64 x (binary64.lit 1 2) i (fsqrt x), ?_, hk.1, finPos_val_pos _ hk.1⟩
  rw [nrDivisor, nrSeed_eq, nrLoop_set1]
  rfl

theorem newton_divisors_positive_witness :
    (F64.fin false 5910974510923776 (-47)).WF ∧ (F64.fin false 5910974510923776 (-47)).FinPos ∧
    ∀ i : Nat, i < 5 →
      ∃ y : F64, nrDivisor binary64 (F64.fin false 5910974510923776 (-47)) i
          = _mm256_set1_pd y ∧ y.FinPos ∧ 0 < y.val :=
  ⟨by decide, by decide,
    newton_divisors_positive (F64.fin false 5910974510923776 (-47)) (by decide) (by decide)⟩

end SimdSqrt
